import Mathlib

set_option maxRecDepth 10000

/-!
# Verification of the instabot-trader command-orchestration core

Shallow embedding of `src/exchanges/manager.js`: the argument/action/block
parsers (regex-driven), the alert extractor, the reference-counted exchange
pool, the sequence executor and the message dispatcher.  The JavaScript
regexes are embedded via a small, complete backtracking matcher
(`matchList`) that is faithful to JS semantics for the constructs these
regexes use: every quantifier in the source's regexes applies to a single
character class, so runs of a class are a primitive of the matcher.
-/

namespace Instabot

/-- JS whitespace class `\s` (also the character set removed by
`String.prototype.trim`). -/
def jsWs (c : Char) : Bool :=
  c == ' ' || c == '\t' || c == '\n' || c == '\r' ||
  c == '\x0b' || c == '\x0c' || c.toNat == 0xa0 || c.toNat == 0x1680 ||
  (0x2000 ≤ c.toNat && c.toNat ≤ 0x200a) || c.toNat == 0x2028 ||
  c.toNat == 0x2029 || c.toNat == 0x202f || c.toNat == 0x205f ||
  c.toNat == 0x3000 || c.toNat == 0xfeff

/-- JS `.` without the `s` flag: any character except line terminators. -/
def jsDot (c : Char) : Bool :=
  !(c == '\n' || c == '\r' || c.toNat == 0x2028 || c.toNat == 0x2029)

def isAsciiLower (c : Char) : Bool := 'a' ≤ c && c ≤ 'z'

def isAsciiUpper (c : Char) : Bool := 'A' ≤ c && c ≤ 'Z'

/-- `[a-zA-Z]`, also `[a-z]` under the `i` flag. -/
def isAsciiAlpha (c : Char) : Bool := isAsciiLower c || isAsciiUpper c

def isAsciiDigit (c : Char) : Bool := '0' ≤ c && c ≤ '9'

/-- `[a-z0-9]` under the `i` flag. -/
def isAlnumCI (c : Char) : Bool := isAsciiAlpha c || isAsciiDigit c

/-- `String.prototype.toLowerCase` restricted to ASCII (the exchange names
the source lower-cases are ASCII identifiers). -/
def asciiLowerChar (c : Char) : Char :=
  if isAsciiUpper c then Char.ofNat (c.toNat + 32) else c

/-- Capture list: `(group index, start position, end position)` triples. -/
abbrev Caps : Type := List (Nat × Nat × Nat)

/-- Regular-expression syntax needed for the source's patterns.  Every
quantifier in those patterns governs a single character class, so `many`
(a possibly-required, greedy-or-lazy run of one class) is complete. -/
inductive RE where
  | eps : RE
  | cls (p : Char → Bool) : RE
  | cat (a b : RE) : RE
  | alt (a b : RE) : RE
  | many (p : Char → Bool) (req lz : Bool) : RE
  | group (n : Nat) (r : RE) : RE
  | bol : RE
  | eol : RE

/-- Single literal character. -/
def lit (c : Char) : RE := RE.cls (fun d => d == c)

/-- Length of the maximal run of characters satisfying `p` at `i`. -/
def runLen (p : Char → Bool) (s : List Char) (i : Nat) : Nat :=
  ((s.drop i).takeWhile p).length

/-- Candidate lengths a quantified class run may take, in backtracking
priority order: lazy tries short first, greedy tries long first. -/
def manyLens (req lz : Bool) (m : Nat) : List Nat :=
  let lo := if req then 1 else 0
  if m < lo then []
  else if lz then List.range' lo (m - lo + 1)
  else (List.range' lo (m - lo + 1)).reverse

/-- All ways `re` can match a prefix of `s.drop i`, as end positions with
captures, in JS backtracking priority order (depth first, left alternative
first, quantifier preference order).  The head of the list is the match JS
produces at `i`. -/
def matchList : RE → List Char → Nat → List (Nat × Caps)
  | .eps, _, i => [(i, [])]
  | .cls p, s, i =>
      match s.drop i with
      | [] => []
      | c :: _ => if p c then [(i + 1, ([] : Caps))] else []
  | .cat a b, s, i =>
      (matchList a s i).flatMap fun r =>
        (matchList b s r.1).map fun r2 => (r2.1, r.2 ++ r2.2)
  | .alt a b, s, i => matchList a s i ++ matchList b s i
  | .many p rq lz, s, i => (manyLens rq lz (runLen p s i)).map fun k => (i + k, ([] : Caps))
  | .group n r, s, i => (matchList r s i).map fun r2 => (r2.1, r2.2 ++ [(n, i, r2.1)])
  | .bol, _, i => if i == 0 then [(i, ([] : Caps))] else []
  | .eol, s, i => if i == s.length then [(i, ([] : Caps))] else []

theorem mem_manyLens (rq lz : Bool) (m k : Nat) :
    k ∈ manyLens rq lz m ↔ ((if rq then 1 else 0) ≤ k ∧ k ≤ m) := by
  unfold manyLens
  by_cases hm : m < (if rq then 1 else 0)
  · simp only [if_pos hm]
    simp only [List.not_mem_nil, false_iff]
    omega
  · simp only [if_neg hm]
    by_cases hlz : lz
    · simp only [if_pos hlz, List.mem_range'_1]
      omega
    · simp only [if_neg hlz, List.mem_reverse, List.mem_range'_1]
      omega

theorem runLen_le (p : Char → Bool) (s : List Char) (i : Nat) :
    runLen p s i ≤ s.length - i := by
  unfold runLen
  have h1 : ((s.drop i).takeWhile p).Sublist (s.drop i) := List.takeWhile_sublist p
  have h2 := h1.length_le
  simpa using h2

theorem matchList_start_le (re : RE) (s : List Char) (i : Nat) :
    ∀ r ∈ matchList re s i, i ≤ r.1 := by
  induction re generalizing i with
  | eps =>
      intro r hr
      simp only [matchList, List.mem_singleton] at hr
      simp [hr]
  | cls p =>
      intro r hr
      simp only [matchList] at hr
      rcases h : s.drop i with _ | ⟨c, cs⟩ <;> rw [h] at hr
      · simp at hr
      · by_cases hp : p c
        · simp only [if_pos hp, List.mem_singleton] at hr
          simp [hr]
        · simp [hp] at hr
  | cat a b iha ihb =>
      intro r hr
      simp only [matchList, List.mem_flatMap, List.mem_map] at hr
      obtain ⟨r1, hr1, r2, hr2, hre⟩ := hr
      have h1 := iha i r1 hr1
      have h2 := ihb r1.1 r2 hr2
      have h3 : r.1 = r2.1 := by rw [← hre]
      omega
  | alt a b iha ihb =>
      intro r hr
      simp only [matchList, List.mem_append] at hr
      rcases hr with h | h
      · exact iha i r h
      · exact ihb i r h
  | many p rq lz =>
      intro r hr
      simp only [matchList, List.mem_map] at hr
      obtain ⟨k, _, hre⟩ := hr
      have h3 : r.1 = i + k := by rw [← hre]
      omega
  | group n a ih =>
      intro r hr
      simp only [matchList, List.mem_map] at hr
      obtain ⟨r2, hr2, hre⟩ := hr
      have h1 := ih i r2 hr2
      have h3 : r.1 = r2.1 := by rw [← hre]
      omega
  | bol =>
      intro r hr
      simp only [matchList] at hr
      by_cases h : i = 0
      · subst h
        simp only [beq_self_eq_true, if_pos, List.mem_singleton] at hr
        simp [hr]
      · have hb : (i == 0) = false := by simp [h]
        rw [hb] at hr
        simp at hr
  | eol =>
      intro r hr
      simp only [matchList] at hr
      by_cases h : i = s.length
      · have hb : (i == s.length) = true := by simp [h]
        rw [hb] at hr
        simp only [if_pos, List.mem_singleton] at hr
        simp [hr]
      · have hb : (i == s.length) = false := by simp [h]
        rw [hb] at hr
        simp at hr

theorem matchList_end_le (re : RE) (s : List Char) (i : Nat) (hi : i ≤ s.length) :
    ∀ r ∈ matchList re s i, r.1 ≤ s.length := by
  induction re generalizing i with
  | eps =>
      intro r hr
      simp only [matchList, List.mem_singleton] at hr
      simp [hr]
      omega
  | cls p =>
      intro r hr
      simp only [matchList] at hr
      rcases h : s.drop i with _ | ⟨c, cs⟩ <;> rw [h] at hr
      · simp at hr
      · by_cases hp : p c
        · simp only [if_pos hp, List.mem_singleton] at hr
          have hlt : i < s.length := by
            by_contra hge
            have hnil : s.drop i = [] := List.drop_eq_nil_of_le (by omega)
            rw [hnil] at h
            exact absurd h (by simp)
          simp [hr]
          omega
        · simp [hp] at hr
  | cat a b iha ihb =>
      intro r hr
      simp only [matchList, List.mem_flatMap, List.mem_map] at hr
      obtain ⟨r1, hr1, r2, hr2, hre⟩ := hr
      have hs1 := matchList_start_le a s i r1 hr1
      have h1 := iha i hi r1 hr1
      have h2 := ihb r1.1 h1 r2 hr2
      have h3 : r.1 = r2.1 := by rw [← hre]
      omega
  | alt a b iha ihb =>
      intro r hr
      simp only [matchList, List.mem_append] at hr
      rcases hr with h | h
      · exact iha i hi r h
      · exact ihb i hi r h
  | many p rq lz =>
      intro r hr
      simp only [matchList, List.mem_map] at hr
      obtain ⟨k, hk, hre⟩ := hr
      have hkle : k ≤ runLen p s i := ((mem_manyLens rq lz (runLen p s i) k).mp hk).2
      have h1 := runLen_le p s i
      have h3 : r.1 = i + k := by rw [← hre]
      omega
  | group n a ih =>
      intro r hr
      simp only [matchList, List.mem_map] at hr
      obtain ⟨r2, hr2, hre⟩ := hr
      have h1 := ih i hi r2 hr2
      have h3 : r.1 = r2.1 := by rw [← hre]
      omega
  | bol =>
      intro r hr
      simp only [matchList] at hr
      by_cases h : i = 0
      · subst h
        simp only [beq_self_eq_true, if_pos, List.mem_singleton] at hr
        simp [hr]
      · have hb : (i == 0) = false := by simp [h]
        rw [hb] at hr
        simp at hr
  | eol =>
      intro r hr
      simp only [matchList] at hr
      by_cases h : i = s.length
      · have hb : (i == s.length) = true := by simp [h]
        rw [hb] at hr
        simp only [if_pos, List.mem_singleton] at hr
        simp [hr]
        omega
      · have hb : (i == s.length) = false := by simp [h]
        rw [hb] at hr
        simp at hr

/-- Fuel-driven scan for `RegExp.prototype.exec`: try the pattern at each
position from `i` on.  Structural recursion on the fuel keeps the function
kernel-reducible; `firstMatchFrom` supplies sufficient fuel. -/
def fmAux (re : RE) (s : List Char) : Nat → Nat → Option (Nat × Nat × Caps)
  | 0, _ => none
  | fuel + 1, i =>
      if s.length < i then none
      else
        match matchList re s i with
        | r :: _ => some (i, r.1, r.2)
        | [] => if i < s.length then fmAux re s fuel (i + 1) else none

/-- `RegExp.prototype.exec` semantics: the first position `≥ i` at which the
pattern matches, with the backtracking-preferred match there.  Returns
`(start, end, captures)`. -/
def firstMatchFrom (re : RE) (s : List Char) (i : Nat) : Option (Nat × Nat × Caps) :=
  fmAux re s (s.length + 1 - i) i

theorem fmAux_congr (re : RE) (s : List Char) :
    ∀ f1 f2 i, s.length + 1 - i ≤ f1 → s.length + 1 - i ≤ f2 →
      fmAux re s f1 i = fmAux re s f2 i := by
  intro f1
  induction f1 with
  | zero =>
      intro f2 i h1 h2
      have hlt : s.length < i := by omega
      cases f2 with
      | zero => rfl
      | succ f2 => simp [fmAux, hlt]
  | succ f1 ih =>
      intro f2 i h1 h2
      cases f2 with
      | zero =>
          have hlt : s.length < i := by omega
          simp [fmAux, hlt]
      | succ f2 =>
          simp only [fmAux]
          by_cases hlt : s.length < i
          · simp [hlt]
          · simp only [if_neg hlt]
            cases matchList re s i with
            | cons r rest => rfl
            | nil =>
                by_cases hlt2 : i < s.length
                · simp only [if_pos hlt2]
                  exact ih f2 (i + 1) (by omega) (by omega)
                · simp [hlt2]

theorem firstMatchFrom_eq (re : RE) (s : List Char) (i : Nat) :
    firstMatchFrom re s i =
      if s.length < i then none
      else
        match matchList re s i with
        | r :: _ => some (i, r.1, r.2)
        | [] => if i < s.length then firstMatchFrom re s (i + 1) else none := by
  unfold firstMatchFrom
  by_cases hlt : s.length < i
  · have h0 : s.length + 1 - i = 0 := by omega
    rw [h0]
    simp [fmAux, hlt]
  · have h1 : s.length + 1 - i = (s.length - i) + 1 := by omega
    rw [h1]
    simp only [fmAux, if_neg hlt]
    cases matchList re s i with
    | cons r rest => rfl
    | nil =>
        by_cases hlt2 : i < s.length
        · simp only [if_pos hlt2]
          exact fmAux_congr re s (s.length - i) (s.length + 1 - (i + 1)) (i + 1) (by omega) (by omega)
        · simp [hlt2]

theorem firstMatchFrom_spec (re : RE) (s : List Char) :
    ∀ f i a b cs, s.length + 1 - i ≤ f → fmAux re s f i = some (a, b, cs) →
      i ≤ a ∧ a ≤ b ∧ b ≤ s.length := by
  intro f
  induction f with
  | zero => intro i a b cs hf h; simp [fmAux] at h
  | succ f ih =>
      intro i a b cs hf h
      simp only [fmAux] at h
      by_cases hlt : s.length < i
      · simp [hlt] at h
      · simp only [if_neg hlt] at h
        cases hm : matchList re s i with
        | cons r rest =>
            rw [hm] at h
            simp only [Option.some.injEq] at h
            have h1 := matchList_start_le re s i r (by rw [hm]; exact List.mem_cons_self r rest)
            have h2 := matchList_end_le re s i (by omega) r (by rw [hm]; exact List.mem_cons_self r rest)
            obtain ⟨ha, hb, hcs⟩ := h
            omega
        | nil =>
            rw [hm] at h
            by_cases hlt2 : i < s.length
            · simp only [if_pos hlt2] at h
              have := ih (i + 1) a b cs (by omega) h
              omega
            · simp [hlt2] at h

theorem firstMatchFrom_bounds (re : RE) (s : List Char) (i a b : Nat) (cs : Caps)
    (h : firstMatchFrom re s i = some (a, b, cs)) :
    i ≤ a ∧ a ≤ b ∧ b ≤ s.length :=
  firstMatchFrom_spec re s (s.length + 1 - i) i a b cs (Nat.le_refl _) h

/-- Fuel-driven loop of a global regex: collect non-overlapping matches left
to right, advancing past each match (JS `lastIndex`), one position on an
empty match. -/
def gmAux (re : RE) (s : List Char) : Nat → Nat → List (Nat × Nat × Caps)
  | 0, _ => []
  | fuel + 1, i =>
      if s.length < i then []
      else
        match firstMatchFrom re s i with
        | none => []
        | some (a, b, cs) => (a, b, cs) :: gmAux re s fuel (if b ≤ a then a + 1 else b)

/-- All matches of a `/g` regex over `s` starting at position `i`, as
`(start, end, captures)` triples, in order. -/
def globalMatches (re : RE) (s : List Char) (i : Nat) : List (Nat × Nat × Caps) :=
  gmAux re s (s.length + 1 - i) i

theorem gmAux_congr (re : RE) (s : List Char) :
    ∀ f1 f2 i, s.length + 1 - i ≤ f1 → s.length + 1 - i ≤ f2 →
      gmAux re s f1 i = gmAux re s f2 i := by
  intro f1
  induction f1 with
  | zero =>
      intro f2 i h1 h2
      have hlt : s.length < i := by omega
      cases f2 with
      | zero => rfl
      | succ f2 => simp [gmAux, hlt]
  | succ f1 ih =>
      intro f2 i h1 h2
      cases f2 with
      | zero =>
          have hlt : s.length < i := by omega
          simp [gmAux, hlt]
      | succ f2 =>
          simp only [gmAux]
          by_cases hlt : s.length < i
          · simp [hlt]
          · simp only [if_neg hlt]
            cases hm : firstMatchFrom re s i with
            | none => rfl
            | some r =>
                obtain ⟨a, b, cs⟩ := r
                have hb := firstMatchFrom_bounds re s i a b cs hm
                have : s.length + 1 - (if b ≤ a then a + 1 else b) ≤ f1 := by
                  by_cases hba : b ≤ a <;> simp [hba] <;> omega
                have h2' : s.length + 1 - (if b ≤ a then a + 1 else b) ≤ f2 := by
                  by_cases hba : b ≤ a <;> simp [hba] <;> omega
                simp only [ih f2 (if b ≤ a then a + 1 else b) this h2']

theorem globalMatches_eq (re : RE) (s : List Char) (i : Nat) :
    globalMatches re s i =
      if s.length < i then []
      else
        match firstMatchFrom re s i with
        | none => []
        | some (a, b, cs) =>
            (a, b, cs) :: globalMatches re s (if b ≤ a then a + 1 else b) := by
  unfold globalMatches
  by_cases hlt : s.length < i
  · have h0 : s.length + 1 - i = 0 := by omega
    rw [h0]
    simp [gmAux, hlt]
  · have h1 : s.length + 1 - i = (s.length - i) + 1 := by omega
    rw [h1]
    simp only [gmAux, if_neg hlt]
    cases hm : firstMatchFrom re s i with
    | none => rfl
    | some r =>
        obtain ⟨a, b, cs⟩ := r
        have hb := firstMatchFrom_bounds re s i a b cs hm
        have hcg : gmAux re s (s.length - i) (if b ≤ a then a + 1 else b) =
            gmAux re s (s.length + 1 - (if b ≤ a then a + 1 else b)) (if b ≤ a then a + 1 else b) := by
          apply gmAux_congr
          · by_cases hba : b ≤ a <;> simp [hba] <;> omega
          · exact Nat.le_refl _
        simp only [hcg]

/-- `s.slice a b` on character lists. -/
def extract (s : List Char) (a b : Nat) : List Char :=
  (s.drop a).take (b - a)

/-- Captured text of group `n`, `none` when the group did not participate. -/
def capStr (s : List Char) (cs : Caps) (n : Nat) : Option (List Char) :=
  (cs.find? (fun t => t.1 == n)).map (fun t => extract s t.2.1 t.2.2)

/-- `String.prototype.replace` with a non-global regex: replace the first
match only. -/
def replaceFirst (re : RE) (s repl : List Char) : List Char :=
  match firstMatchFrom re s 0 with
  | none => s
  | some (a, b, _) => extract s 0 a ++ repl ++ s.drop b

/-- Fuel-driven `String.prototype.replace` with a `/g` regex: replace every
match, keeping unmatched text; on an empty match the current character is
kept and the scan advances one position. -/
def raAux (re : RE) (s repl : List Char) : Nat → Nat → List Char
  | 0, _ => []
  | fuel + 1, i =>
      if s.length < i then []
      else
        match firstMatchFrom re s i with
        | none => s.drop i
        | some (a, b, _) =>
            if b ≤ a then
              extract s i a ++ repl ++ (s.drop a).take 1 ++ raAux re s repl fuel (a + 1)
            else
              extract s i a ++ repl ++ raAux re s repl fuel b

/-- `String.prototype.replace` with a `/g` regex, from position `i`. -/
def replaceAll (re : RE) (s repl : List Char) (i : Nat) : List Char :=
  raAux re s repl (s.length + 1 - i) i

theorem raAux_congr (re : RE) (s repl : List Char) :
    ∀ f1 f2 i, s.length + 1 - i ≤ f1 → s.length + 1 - i ≤ f2 →
      raAux re s repl f1 i = raAux re s repl f2 i := by
  intro f1
  induction f1 with
  | zero =>
      intro f2 i h1 h2
      have hlt : s.length < i := by omega
      cases f2 with
      | zero => rfl
      | succ f2 => simp [raAux, hlt]
  | succ f1 ih =>
      intro f2 i h1 h2
      cases f2 with
      | zero =>
          have hlt : s.length < i := by omega
          simp [raAux, hlt]
      | succ f2 =>
          simp only [raAux]
          by_cases hlt : s.length < i
          · simp [hlt]
          · simp only [if_neg hlt]
            cases hm : firstMatchFrom re s i with
            | none => rfl
            | some r =>
                obtain ⟨a, b, cs⟩ := r
                have hb := firstMatchFrom_bounds re s i a b cs hm
                by_cases hba : b ≤ a
                · simp only [if_pos hba]
                  rw [ih f2 (a + 1) (by omega) (by omega)]
                · simp only [if_neg hba]
                  rw [ih f2 b (by omega) (by omega)]

theorem replaceAll_eq (re : RE) (s repl : List Char) (i : Nat) :
    replaceAll re s repl i =
      if s.length < i then []
      else
        match firstMatchFrom re s i with
        | none => s.drop i
        | some (a, b, _) =>
            if b ≤ a then
              extract s i a ++ repl ++ (s.drop a).take 1 ++ replaceAll re s repl (a + 1)
            else
              extract s i a ++ repl ++ replaceAll re s repl b := by
  unfold replaceAll
  by_cases hlt : s.length < i
  · have h0 : s.length + 1 - i = 0 := by omega
    rw [h0]
    simp [raAux, hlt]
  · have h1 : s.length + 1 - i = (s.length - i) + 1 := by omega
    rw [h1]
    simp only [raAux, if_neg hlt]
    cases hm : firstMatchFrom re s i with
    | none => rfl
    | some r =>
        obtain ⟨a, b, cs⟩ := r
        have hb := firstMatchFrom_bounds re s i a b cs hm
        by_cases hba : b ≤ a
        · simp only [if_pos hba]
          rw [raAux_congr re s repl (s.length - i) (s.length + 1 - (a + 1)) (a + 1) (by omega) (by omega)]
        · simp only [if_neg hba]
          rw [raAux_congr re s repl (s.length - i) (s.length + 1 - b) b (by omega) (by omega)]

/-- JS `String.prototype.trim` (drops `\s` on both ends). -/
def jsTrim (s : List Char) : List Char :=
  List.dropWhile jsWs ((List.dropWhile jsWs s.reverse).reverse)

/-- `[^,]` as a character predicate. -/
def nonComma (c : Char) : Bool := !(c == ',')

/-- `[^"]` as a character predicate. -/
def nonQuote (c : Char) : Bool := !(c == '"')

/-- `([^,]+?\"[^\"]+\")` — the quote-aware branch of the comma-split
pattern. -/
def scQuoteTok : RE :=
  RE.group 1
    (RE.cat (RE.many nonComma true true)
      (RE.cat (lit '"')
        (RE.cat (RE.many nonQuote true false) (lit '"'))))

/-- `([^,]+)` — the plain branch of the comma-split pattern. -/
def scPlainTok : RE := RE.group 2 (RE.many nonComma true false)

/-- `/([^,]+?\"[^\"]+\")|([^,]+)/g` — the comma-split pattern of
`parseArguments` (quote-aware: a comma inside `"…"` does not split). -/
def splitByCommaRE : RE := RE.alt scQuoteTok scPlainTok

/-- `("([^"]*)")` — the fully-quoted value alternative. -/
def svQuoted : RE :=
  RE.group 4
    (RE.cat (lit '"')
      (RE.cat (RE.group 5 (RE.many nonQuote false false)) (lit '"')))

/-- `"?(.+)"?` — the bare value alternative. -/
def svBare : RE :=
  RE.cat (RE.alt (lit '"') RE.eps)
    (RE.cat (RE.group 6 (RE.many jsDot true false)) (RE.alt (lit '"') RE.eps))

/-- `^(([a-zA-Z]+)\s*=\s*(…))` — the named-argument branch. -/
def svBranch1 : RE :=
  RE.cat RE.bol
    (RE.group 1
      (RE.cat (RE.group 2 (RE.many isAsciiAlpha true false))
        (RE.cat (RE.many jsWs false false)
          (RE.cat (lit '=')
            (RE.cat (RE.many jsWs false false)
              (RE.group 3 (RE.alt svQuoted svBare)))))))

/-- `(.+)$` — the positional-argument branch. -/
def svBranch2 : RE := RE.cat (RE.group 7 (RE.many jsDot true false)) RE.eol

/-- `/^(([a-zA-Z]+)\s*=\s*(("([^"]*)")|"?(.+)"?))|(.+)$/` — the token
classification pattern of `parseArguments`.  Alternation binds loosest, so
`^` anchors only the first branch and `$` only the second. -/
def splitValuesRE : RE := RE.alt svBranch1 svBranch2

/-- `/^"(.*)"$/` — full-quoting test applied to a plain argument value. -/
def quotesRE : RE :=
  RE.cat RE.bol
    (RE.cat (lit '"')
      (RE.cat (RE.group 1 (RE.many jsDot false false)) (RE.cat (lit '"') RE.eol)))

/-- A parsed argument: `{ name: string, value: string, index: integer }`;
an empty name marks a positional value. -/
structure Param where
  name : String
  value : String
  index : Nat
deriving DecidableEq, Repr

/-- JS truthiness of an optional captured string: `undefined` and `""` are
both falsy. -/
def truthy : Option (List Char) → Bool
  | some v => !v.isEmpty
  | none => false

/-- The comma-split phase of `parseArguments`: each global match of
`splitByCommaRE`, trimmed (`m[0].trim()`). -/
def argTokens (params : List Char) : List (List Char) :=
  (globalMatches splitByCommaRE params 0).map fun m => jsTrim (extract params m.1 m.2.1)

/-- The classification phase of `parseArguments` for one token at position
`i`: `splitValues.exec(item)` followed by the `m[7]`/`m[6]`/`m[5]`
truthiness cascade of the source. -/
def classifyTok (item : List Char) (i : Nat) : Option Param :=
  match firstMatchFrom splitValuesRE item 0 with
  | none => none
  | some r =>
      let cs := r.2.2
      let g7 := capStr item cs 7
      let g6 := capStr item cs 6
      let g5 := capStr item cs 5
      let g2 := (capStr item cs 2).getD []
      if truthy g7 then
        let v := g7.getD []
        let value :=
          match firstMatchFrom quotesRE v 0 with
          | some rq => (capStr v rq.2.2 1).getD []
          | none => v
        some ⟨"", String.mk value, i⟩
      else if truthy g6 then some ⟨String.mk g2, String.mk (g6.getD []), i⟩
      else if truthy g5 then some ⟨String.mk g2, String.mk (g5.getD []), i⟩
      else none

/-- `ExchangeManager.parseArguments` (manager.js:109-137). -/
def parseArguments (params : String) : List Param :=
  ((argTokens params.toList).enum).filterMap fun t => classifyTok t.2 t.1

example : parseArguments "" = [] := by decide

/-- `/([a-z]+)\(([\s\S]*?)\)/gi` — the action pattern of `parseActions`. -/
def actionRE : RE :=
  RE.cat (RE.group 1 (RE.many isAsciiAlpha true false))
    (RE.cat (lit '(')
      (RE.cat (RE.group 2 (RE.many (fun _ => true) false true)) (lit ')')))

/-- A parsed action: `{ name, params }`. -/
structure ExAction where
  name : String
  params : List Param
deriving DecidableEq, Repr

/-- `ExchangeManager.parseActions` (manager.js:144-155). -/
def parseActions (commands : String) : List ExAction :=
  (globalMatches actionRE commands.toList 0).map fun m =>
    let s := commands.toList
    let g1 := (capStr s m.2.2 1).getD []
    let g2 := (capStr s m.2.2 2).getD []
    ⟨String.mk (jsTrim g1), parseArguments (String.mk (jsTrim g2))⟩

/-- One observable event of a command sequence: an action was executed, or
an action failure was logged. -/
inductive SeqEvent where
  | ran (name : String) (params : List Param) : SeqEvent
  | failLog (name : String) : SeqEvent
deriving DecidableEq, Repr

/-- `async.eachSeries`: run the iterator on each element in order, stopping
with an error only if the iterator passes one to its callback. -/
def eachSeries {α : Type} (iter : α → List SeqEvent × Option String) :
    List α → List SeqEvent × Option String
  | [] => ([], none)
  | x :: rest =>
      match (iter x).2 with
      | some e => ((iter x).1, some e)
      | none =>
          let r := eachSeries iter rest
          ((iter x).1 ++ r.1, r.2)

/-- The per-action iterator of `executeCommandSequence`: run the action; on
rejection log the failure and continue (`next()` is called either way, never
with an error).  `oracle` tells whether `exchange.executeCommand` resolves
for the given action. -/
def seqIterator (oracle : String → List Param → Bool) (a : ExAction) :
    List SeqEvent × Option String :=
  if oracle a.name a.params then ([SeqEvent.ran a.name a.params], none)
  else ([SeqEvent.ran a.name a.params, SeqEvent.failLog a.name], none)

/-- Outcome of `executeCommandSequence`: the events in order, and whether
the returned promise resolved (`true`) or rejected (`false`). -/
structure SeqOutcome where
  events : List SeqEvent
  resolved : Bool
deriving DecidableEq, Repr

/-- `ExchangeManager.executeCommandSequence` (manager.js:164-191): no-op on
an empty symbol or command string, otherwise parse the actions and run them
in series; the promise rejects only if `eachSeries` reports an error. -/
def executeCommandSequence (oracle : String → List Param → Bool)
    (symbol commands : String) : SeqOutcome :=
  if symbol = "" ∨ commands = "" then ⟨[], true⟩
  else
    let r := eachSeries (seqIterator oracle) (parseActions commands)
    ⟨r.1, r.2.isNone⟩

/-- `/\{!\}/` — the alert marker pattern. -/
def markerRE : RE := RE.cat (lit '{') (RE.cat (lit '!') (lit '}'))

/-- `/([a-z]+)\(([\s\S]*?)\)\s*{([\s\S]*?)}/gi` — the block pattern
`handleAlerts` removes (identifier of letters only). -/
def alertBlockRE : RE :=
  RE.cat (RE.group 1 (RE.many isAsciiAlpha true false))
    (RE.cat (lit '(')
      (RE.cat (RE.group 2 (RE.many (fun _ => true) false true))
        (RE.cat (lit ')')
          (RE.cat (RE.many jsWs false false)
            (RE.cat (lit '{')
              (RE.cat (RE.group 3 (RE.many (fun _ => true) false true))
                (lit '}')))))))

/-- `/\s+/gu` — whitespace runs, collapsed to a single space. -/
def wsRunRE : RE := RE.many jsWs true false

/-- The text transform of `handleAlerts`: strip command blocks, strip the
first alert marker, collapse whitespace runs, trim. -/
def alertText (s : List Char) : List Char :=
  jsTrim (replaceAll wsRunRE (replaceFirst markerRE (replaceAll alertBlockRE s [] 0) []) [' '] 0)

/-- `ExchangeManager.handleAlerts` (manager.js:197-211), with the notifier
modelled by the return value: `some t` when `notifier.send(t)` is invoked,
`none` when it is not. -/
def handleAlerts (msg : String) : Option String :=
  if (firstMatchFrom markerRE msg.toList 0).isSome then
    let toSend := alertText msg.toList
    if String.mk toSend ≠ "" then some (String.mk toSend) else none
  else none

/-- `/([a-z][a-z0-9]*)\(([^()]*?)\)\s*{([\s\S]*?)}/gi` — the block pattern
of `commandBlocks` (identifier: a letter then letters or digits; symbol part
free of parentheses). -/
def cmdBlockRE : RE :=
  RE.cat
    (RE.group 1 (RE.cat (RE.cls isAsciiAlpha) (RE.many isAlnumCI false false)))
    (RE.cat (lit '(')
      (RE.cat (RE.group 2 (RE.many (fun c => !(c == '(' || c == ')')) false true))
        (RE.cat (lit ')')
          (RE.cat (RE.many jsWs false false)
            (RE.cat (lit '{')
              (RE.cat (RE.group 3 (RE.many (fun _ => true) false true))
                (lit '}')))))))

/-- `ExchangeManager.commandBlocks` (manager.js:218-231), with the callback
modelled by the returned list: the `(exchangeName, symbol, actions)` triples
passed to `cb`, in order (lower-cased name; all three parts non-empty). -/
def commandBlocksList (msg : String) : List (String × String × String) :=
  (globalMatches cmdBlockRE msg.toList 0).filterMap fun m =>
    let s := msg.toList
    let en := (jsTrim ((capStr s m.2.2 1).getD [])).map asciiLowerChar
    let sym := jsTrim ((capStr s m.2.2 2).getD [])
    let act := jsTrim ((capStr s m.2.2 3).getD [])
    if !en.isEmpty && !sym.isEmpty && !act.isEmpty then
      some (String.mk en, String.mk sym, String.mk act)
    else none

/-- A credentials record from the configured credentials list.  `name` is
the alias the list is searched by; `exchange` is the optional
`credentials.exchange` override used to resolve the catalog entry; `payload`
stands for the remaining (opaque) credential fields. -/
structure Creds where
  name : String
  exchange : Option String
  payload : String
deriving DecidableEq, Repr

/-- Modelled from the spec: the exchange handle state.  The concrete
`Exchange` base class (`init`, `terminate`, `matches`, `addReference`,
`removeReference`) is not part of the provided sources, so its observable
state is modelled from the spec's capability contract: the handle carries
the catalog entry's name it was instantiated from and the credentials it
was constructed with; `matches(name, credentials)` compares both; the
reference count starts at the instantiation default 1 (opening the same
identity twice yields a shared count of 2 per the spec) and
`removeReference()` returns the decremented count.  `live` is membership in
the manager's open-set (`this.opened`); `terminated` records whether
`terminate()` has been invoked. -/
structure HRec where
  hname : String
  hcreds : Creds
  refCount : Int
  live : Bool
  terminated : Bool
deriving DecidableEq, Repr

/-- Pool state: every handle ever created, in creation order; the open-set
is the sublist of `live` entries (push appends, removal filters, so the
open-set order is the creation order restricted to live handles). -/
abbrev MState : Type := List HRec

/-- Modelled from the spec: `exchange.matches(name, credentials)` — identity
comparison on the handle's name and credentials. -/
def hmatches (h : HRec) (n : String) (c : Creds) : Bool :=
  h.hname == n && h.hcreds == c

/-- Scan for the first live handle matching `(n, c)`, carrying the index. -/
def findOpenedAux (n : String) (c : Creds) : List HRec → Nat → Option Nat
  | [], _ => none
  | h :: rest, i =>
      if h.live && hmatches h n c then some i else findOpenedAux n c rest (i + 1)

/-- `ExchangeManager.findOpened` (manager.js:31-33): index of the first
open-set entry matching `(name, credentials)`. -/
def findOpened (st : MState) (n : String) (c : Creds) : Option Nat :=
  findOpenedAux n c st 0

/-- Update handle `i` in place. -/
def modifyH (st : MState) (i : Nat) (f : HRec → HRec) : MState :=
  match st.get? i with
  | none => st
  | some h => st.set i (f h)

/-- `exchange.addReference()` on handle `i`. -/
def addRef (st : MState) (i : Nat) : MState :=
  modifyH st i fun h => { h with refCount := h.refCount + 1 }

/-- `new match.class(credentials)` followed by `this.opened.push(...)`:
append a fresh handle (reference count 1, live) named after the resolved
catalog entry.  Returns the new state and the handle's index. -/
def createHandle (st : MState) (hn : String) (c : Creds) : MState × Nat :=
  (st ++ [⟨hn, c, 1, true, false⟩], st.length)

/-- `credentials.exchange || name` (manager.js:52). -/
def resolveName (c : Creds) (n : String) : String :=
  c.exchange.getD n

/-- `ExchangeManager.closeExchange` (manager.js:78-89): re-resolve the pool
entry by the handle's identity; if absent, no-op; otherwise decrement the
handle's count and, when it reaches zero or below, terminate it and remove
it from the open-set. -/
def closeExchange (st : MState) (i : Nat) : MState :=
  match st.get? i with
  | none => st
  | some h =>
      match findOpened st h.hname h.hcreds with
      | none => st
      | some _ =>
          if h.refCount - 1 ≤ 0 then
            modifyH st i fun h0 =>
              { h0 with refCount := h0.refCount - 1, terminated := true, live := false }
          else modifyH st i fun h0 => { h0 with refCount := h0.refCount - 1 }

/-- `ExchangeManager.openExchange` (manager.js:41-72): return an existing
match with a bumped reference count, otherwise resolve the catalog entry
(`credentials.exchange || name`), create and register a new handle, then run
`init(symbol)` — on failure (`initOk = false`) close the new handle and
return `none`.  `catalog` is the registered exchange name list. -/
def openExchange (catalog : List String) (st : MState) (n : String) (c : Creds)
    (initOk : Bool) : MState × Option Nat :=
  match findOpened st n c with
  | some i => (addRef st i, some i)
  | none =>
      let en := resolveName c n
      if catalog.contains en then
        let st1 := (createHandle st en c).1
        let i := st.length
        if initOk then (st1, some i)
        else (closeExchange st1 i, none)
      else (st, none)

/-- Sequential interleavings of pool operations starting from the empty
pool, in which every open call's credentials resolve to the name they are
opened under (`credentials.exchange` absent or equal to the alias).  The
mid-initialization window is reachable (`openMid` is the state right after
the push, before `init` settles); an init failure is the subsequent
`closeStep` on the new handle, and further opens may interleave with the
window. -/
inductive ReachA (catalog : List String) : MState → Prop where
  | empty : ReachA catalog []
  | openStep (st : MState) (n : String) (c : Creds) (ok : Bool) :
      ReachA catalog st → (c.exchange = none ∨ c.exchange = some n) →
      ReachA catalog (openExchange catalog st n c ok).1
  | openMid (st : MState) (n : String) (c : Creds) :
      ReachA catalog st → (c.exchange = none ∨ c.exchange = some n) →
      findOpened st n c = none →
      ReachA catalog (createHandle st (resolveName c n) c).1
  | closeStep (st : MState) (i : Nat) :
      ReachA catalog st → ReachA catalog (closeExchange st i)

/-- C1's open-set uniqueness: at most one live entry per handle identity. -/
def uniqIdent (st : MState) : Prop :=
  ∀ n c, (st.countP fun h => h.live && hmatches h n c) ≤ 1

/-- C1's count consistency: a handle is live exactly while its reference
count is positive. -/
def countsOk (st : MState) : Prop :=
  ∀ h ∈ st, (h.live = true → 1 ≤ h.refCount) ∧ (h.live = false → h.refCount ≤ 0)

/-- A member of the `all` collection returned by `executeMessage`: the
initial `Promise.resolve()` placeholder, or the scheduled completion of
dispatched block number `idx` with its sequence outcome. -/
inductive Completion where
  | placeholder : Completion
  | block (idx : Nat) (out : SeqOutcome) : Completion
deriving DecidableEq, Repr

/-- Result of the asynchronous continuation of `executeMessage`'s block
callbacks (everything after the callbacks' first `await`). -/
structure DispatchRes where
  completions : List Completion
  errors : List String
  state : MState
  pendingClose : List Nat
deriving DecidableEq, Repr

/-- Result of one block callback: an optional scheduled completion, an
optional error report, the pool state after the callback, and the handle
index whose cool-down close was scheduled (if any). -/
structure StepRes where
  completion : Option Completion
  err : Option String
  state : MState
  closeIdx : Option Nat
deriving DecidableEq, Repr

/-- The open-and-run part of one block callback (manager.js:252-261): open
the exchange; on failure report "not supported", otherwise run the command
sequence, record its completion and schedule the cool-down close. -/
def dispatchOpen (catalog : List String) (initOk : String → Creds → Bool)
    (oracle : String → List Param → Bool) (i : Nat) (en sym act : String)
    (c : Creds) (st : MState) : StepRes :=
  match openExchange catalog st en c (initOk en c) with
  | (st1, none) => ⟨none, some ("Exchange '" ++ en ++ "' is not supported"), st1, none⟩
  | (st1, some hi) =>
      ⟨some (Completion.block i (executeCommandSequence oracle sym act)), none, st1, some hi⟩

/-- One block callback of `executeMessage` (manager.js:249-265): look up
credentials by exchange name, reporting and skipping the block when absent,
otherwise proceed to `dispatchOpen`. -/
def dispatchStep (catalog : List String) (initOk : String → Creds → Bool)
    (oracle : String → List Param → Bool) (credentials : List Creds)
    (b : Nat × (String × String × String)) (st : MState) : StepRes :=
  match credentials.find? fun c => c.name == b.2.1 with
  | none => ⟨none, some ("No credentials for '" ++ b.2.1 ++ "'. Skipping"), st, none⟩
  | some c => dispatchOpen catalog initOk oracle b.1 b.2.1 b.2.2.1 b.2.2.2 c st

/-- The block callbacks of `executeMessage`, modelled sequentially over the
extracted blocks; the 500 ms cool-down closes are deferred
(`pendingClose`), matching timers firing after all block processing. -/
def dispatchBlocks (catalog : List String) (initOk : String → Creds → Bool)
    (oracle : String → List Param → Bool) (credentials : List Creds) :
    List (Nat × (String × String × String)) → MState → DispatchRes
  | [], st => ⟨[], [], st, []⟩
  | b :: rest, st =>
      let step := dispatchStep catalog initOk oracle credentials b st
      let r := dispatchBlocks catalog initOk oracle credentials rest step.state
      ⟨step.completion.toList ++ r.completions, step.err.toList ++ r.errors,
        r.state, step.closeIdx.toList ++ r.pendingClose⟩

/-- Outcome of `executeMessage`: `allAtReturn` is the content of the
returned `all` array at the moment `executeMessage` returns to its caller;
`allFinal` is the content of that same (mutable) array once every scheduled
block callback has settled. -/
structure MsgOutcome where
  allAtReturn : List Completion
  allFinal : List Completion
  errors : List String
  finalState : MState
deriving DecidableEq, Repr

/-- `ExchangeManager.executeMessage` (manager.js:238-271).  `commandBlocks`
is a synchronous scan that invokes the `async` block callback without
awaiting it; each callback suspends at its first `await` before pushing
anything into `all`, so `executeMessage` returns `all` containing only the
initial `Promise.resolve()`; the callbacks' continuations push the per-block
completions into the same array afterwards (`allFinal`), and the cool-down
closes fire last. -/
def executeMessage (catalog : List String) (initOk : String → Creds → Bool)
    (oracle : String → List Param → Bool) (msg : String)
    (credentials : List Creds) (st : MState) : MsgOutcome :=
  let blocks := (commandBlocksList msg).enum
  let d := dispatchBlocks catalog initOk oracle credentials blocks st
  { allAtReturn := [Completion.placeholder]
    allFinal := Completion.placeholder :: d.completions
    errors := d.errors
    finalState := d.pendingClose.foldl closeExchange d.state }

theorem findOpenedAux_none (n : String) (c : Creds) :
    ∀ (l : List HRec) (i : Nat), findOpenedAux n c l i = none ↔
      ∀ h ∈ l, (h.live && hmatches h n c) = false := by
  intro l
  induction l with
  | nil => intro i; simp [findOpenedAux]
  | cons h rest ih =>
      intro i
      simp only [findOpenedAux]
      by_cases hp : (h.live && hmatches h n c) = true
      · rw [if_pos hp]
        constructor
        · intro hc
          exact Option.noConfusion hc
        · intro hall
          have hx := hall h (List.mem_cons_self h rest)
          rw [hp] at hx
          exact Bool.noConfusion hx
      · rw [if_neg hp]
        have hf : (h.live && hmatches h n c) = false := by
          cases hq : (h.live && hmatches h n c)
          · rfl
          · exact absurd hq hp
        constructor
        · intro hnone h2 hmem
          rcases List.mem_cons.mp hmem with he | hm
          · rw [he]; exact hf
          · exact (ih (i + 1)).mp hnone h2 hm
        · intro hall
          exact (ih (i + 1)).mpr fun h2 hm => hall h2 (List.mem_cons_of_mem h hm)

theorem findOpenedAux_some (n : String) (c : Creds) :
    ∀ (l : List HRec) (i j : Nat), findOpenedAux n c l i = some j →
      i ≤ j ∧ ∃ h, l.get? (j - i) = some h ∧ (h.live && hmatches h n c) = true := by
  intro l
  induction l with
  | nil => intro i j h; simp [findOpenedAux] at h
  | cons hd rest ih =>
      intro i j hfind
      simp only [findOpenedAux] at hfind
      by_cases hp : (hd.live && hmatches hd n c) = true
      · rw [if_pos hp] at hfind
        have hij : i = j := by simpa using hfind
        subst hij
        refine ⟨Nat.le_refl i, hd, ?_, hp⟩
        simp
      · have hf : (hd.live && hmatches hd n c) = false := by
          cases hq : (hd.live && hmatches hd n c)
          · rfl
          · exact absurd hq hp
        rw [hf] at hfind
        simp only [Bool.false_eq_true, if_false] at hfind
        obtain ⟨hle, h, hget, hph⟩ := ih (i + 1) j hfind
        refine ⟨by omega, h, ?_, hph⟩
        have hd1 : j - i = (j - (i + 1)) + 1 := by omega
        rw [hd1]
        simpa using hget

theorem findOpened_spec (st : MState) (n : String) (c : Creds) (j : Nat)
    (h : findOpened st n c = some j) :
    ∃ hh, st.get? j = some hh ∧ hh.live = true ∧ hmatches hh n c = true := by
  obtain ⟨-, hh, hget, hp⟩ := findOpenedAux_some n c st 0 j h
  simp only [Nat.sub_zero] at hget
  exact ⟨hh, hget, (Bool.and_eq_true _ _).mp hp |>.1, (Bool.and_eq_true _ _).mp hp |>.2⟩

theorem findOpened_ne_none (st : MState) (n : String) (c : Creds) (hh : HRec)
    (hmem : hh ∈ st) (hlive : hh.live = true) (hm : hmatches hh n c = true) :
    findOpened st n c ≠ none := by
  intro hnone
  have := (findOpenedAux_none n c st 0).mp hnone hh hmem
  rw [hlive, hm] at this
  simp at this

theorem findOpened_none_iff (st : MState) (n : String) (c : Creds) :
    findOpened st n c = none ↔ ∀ h ∈ st, (h.live && hmatches h n c) = false :=
  findOpenedAux_none n c st 0

theorem countP_set_add {α : Type} (p : α → Bool) :
    ∀ (l : List α) (i : Nat) (a h : α), l.get? i = some h →
      (l.set i a).countP p + (if p h then 1 else 0) =
        l.countP p + (if p a then 1 else 0) := by
  intro l
  induction l with
  | nil => intro i a h hget; simp at hget
  | cons x xs ih =>
      intro i a h hget
      cases i with
      | zero =>
          simp only [List.get?] at hget
          have hx : x = h := by simpa using hget
          subst hx
          simp only [List.set, List.countP_cons]
          omega
      | succ i =>
          simp only [List.get?] at hget
          simp only [List.set, List.countP_cons]
          have := ih i a h hget
          omega

theorem mem_modifyH (st : MState) (i : Nat) (f : HRec → HRec) (a : HRec)
    (hmem : a ∈ modifyH st i f) :
    a ∈ st ∨ ∃ h, st.get? i = some h ∧ a = f h := by
  unfold modifyH at hmem
  cases hget : st.get? i with
  | none => rw [hget] at hmem; exact Or.inl hmem
  | some h =>
      rw [hget] at hmem
      rcases List.mem_or_eq_of_mem_set hmem with hin | heq
      · exact Or.inl hin
      · exact Or.inr ⟨h, rfl, heq⟩

theorem modifyH_countP (st : MState) (i : Nat) (f : HRec → HRec) (h : HRec)
    (p : HRec → Bool) (hget : st.get? i = some h) :
    (modifyH st i f).countP p + (if p h then 1 else 0) =
      st.countP p + (if p (f h) then 1 else 0) := by
  unfold modifyH
  rw [hget]
  exact countP_set_add p st i (f h) h hget

theorem get?_mem_st (st : MState) (i : Nat) (h : HRec) (hget : st.get? i = some h) :
    h ∈ st :=
  List.get?_mem hget

theorem modifyH_countP_eq (st : MState) (i : Nat) (f : HRec → HRec) (h : HRec)
    (p : HRec → Bool) (hget : st.get? i = some h) (hpres : p (f h) = p h) :
    (modifyH st i f).countP p = st.countP p := by
  have heq := modifyH_countP st i f h p hget
  rw [hpres] at heq
  omega

theorem modifyH_countP_le (st : MState) (i : Nat) (f : HRec → HRec) (h : HRec)
    (p : HRec → Bool) (hget : st.get? i = some h) (hpf : p (f h) = false) :
    (modifyH st i f).countP p ≤ st.countP p := by
  have heq := modifyH_countP st i f h p hget
  rw [hpf] at heq
  simp only [Bool.false_eq_true, if_false] at heq
  omega

theorem countP_singleton_le_one {α : Type} (p : α → Bool) (a : α) :
    List.countP p [a] ≤ 1 := by
  simp only [List.countP_cons, List.countP_nil]
  split <;> omega

theorem countP_singleton_eq_zero {α : Type} (p : α → Bool) (a : α) (h : p a = false) :
    List.countP p [a] = 0 := by
  simp [List.countP_cons, h]

theorem closeExchange_preserves (st : MState) (i : Nat)
    (hu : uniqIdent st) (hc : countsOk st) :
    uniqIdent (closeExchange st i) ∧ countsOk (closeExchange st i) := by
  unfold closeExchange
  split
  · exact ⟨hu, hc⟩
  · rename_i h hget
    split
    · exact ⟨hu, hc⟩
    · rename_i j hfind
      split
      · rename_i hdec
        constructor
        · intro n c
          have hle := modifyH_countP_le st i
            (fun h0 => { h0 with refCount := h0.refCount - 1, terminated := true, live := false })
            h (fun hh => hh.live && hmatches hh n c) hget rfl
          have h1 := hu n c
          omega
        · intro h2 hmem
          rcases mem_modifyH st i _ h2 hmem with hin | ⟨h3, hget3, heq3⟩
          · exact hc h2 hin
          · have h3h : h3 = h := by rw [hget] at hget3; exact (Option.some.inj hget3).symm
            rw [h3h] at heq3
            rw [heq3]
            constructor
            · intro hlv; exact absurd hlv (by simp)
            · intro _
              show h.refCount - 1 ≤ (0 : Int)
              omega
      · rename_i hdec
        have hmemh : h ∈ st := get?_mem_st st i h hget
        have hlive : h.live = true := by
          by_contra hnl
          have hfls : h.live = false := by
            cases hq : h.live
            · rfl
            · exact absurd hq hnl
          have := (hc h hmemh).2 hfls
          omega
        constructor
        · intro n c
          have heq := modifyH_countP_eq st i
            (fun h0 => { h0 with refCount := h0.refCount - 1 })
            h (fun hh => hh.live && hmatches hh n c) hget rfl
          have h1 := hu n c
          omega
        · intro h2 hmem
          rcases mem_modifyH st i _ h2 hmem with hin | ⟨h3, hget3, heq3⟩
          · exact hc h2 hin
          · have h3h : h3 = h := by rw [hget] at hget3; exact (Option.some.inj hget3).symm
            rw [h3h] at heq3
            rw [heq3]
            constructor
            · intro _
              show (1 : Int) ≤ h.refCount - 1
              omega
            · intro hlf
              rw [hlive] at hlf
              simp at hlf

theorem countP_eq_zero_of_findOpened_none (st : MState) (n : String) (c : Creds)
    (hfind : findOpened st n c = none) :
    (st.countP fun h => h.live && hmatches h n c) = 0 := by
  rw [List.countP_eq_zero]
  intro h hmem
  have := (findOpened_none_iff st n c).mp hfind h hmem
  simp [this]

theorem createHandle_preserves (st : MState) (n : String) (c : Creds)
    (hres : c.exchange = none ∨ c.exchange = some n)
    (hfind : findOpened st n c = none)
    (hu : uniqIdent st) (hc : countsOk st) :
    uniqIdent (createHandle st (resolveName c n) c).1 ∧
      countsOk (createHandle st (resolveName c n) c).1 := by
  have hen : resolveName c n = n := by
    rcases hres with h | h <;> simp [resolveName, h]
  rw [hen]
  constructor
  · intro n2 c2
    simp only [createHandle, List.countP_append]
    by_cases hp : ((⟨n, c, 1, true, false⟩ : HRec).live &&
        hmatches ⟨n, c, 1, true, false⟩ n2 c2) = true
    · have hn2 : n2 = n ∧ c2 = c := by
        simp only [hmatches, Bool.and_eq_true, beq_iff_eq] at hp
        exact ⟨hp.2.1.symm, hp.2.2.symm⟩
      rw [hn2.1, hn2.2]
      have hz := countP_eq_zero_of_findOpened_none st n c hfind
      have hone := countP_singleton_le_one
        (fun hh => hh.live && hmatches hh n c) (⟨n, c, 1, true, false⟩ : HRec)
      omega
    · have hf : ((⟨n, c, 1, true, false⟩ : HRec).live &&
          hmatches ⟨n, c, 1, true, false⟩ n2 c2) = false := by
        cases hq : ((⟨n, c, 1, true, false⟩ : HRec).live &&
            hmatches ⟨n, c, 1, true, false⟩ n2 c2)
        · rfl
        · exact absurd hq hp
      have h1 := hu n2 c2
      have hzero := countP_singleton_eq_zero
        (fun hh => hh.live && hmatches hh n2 c2) (⟨n, c, 1, true, false⟩ : HRec) hf
      omega
  · intro h hmem
    simp only [createHandle] at hmem
    rcases List.mem_append.mp hmem with hin | hnew
    · exact hc h hin
    · have : h = ⟨n, c, 1, true, false⟩ := by simpa using hnew
      rw [this]
      constructor
      · intro _; simp
      · intro hl; exact absurd hl (by simp)

theorem openExchange_create_eq (catalog : List String) (st : MState) (n : String)
    (c : Creds) (ok : Bool) (hfind : findOpened st n c = none) :
    openExchange catalog st n c ok =
      if catalog.contains (resolveName c n) = true then
        (if ok then ((createHandle st (resolveName c n) c).1, some st.length)
         else (closeExchange (createHandle st (resolveName c n) c).1 st.length, none))
      else (st, none) := by
  unfold openExchange
  rw [hfind]

theorem openExchange_found_eq (catalog : List String) (st : MState) (n : String)
    (c : Creds) (ok : Bool) (i : Nat) (hfind : findOpened st n c = some i) :
    openExchange catalog st n c ok = (addRef st i, some i) := by
  unfold openExchange
  rw [hfind]

theorem openExchange_preserves (catalog : List String) (st : MState) (n : String)
    (c : Creds) (ok : Bool) (hres : c.exchange = none ∨ c.exchange = some n)
    (hu : uniqIdent st) (hc : countsOk st) :
    uniqIdent (openExchange catalog st n c ok).1 ∧
      countsOk (openExchange catalog st n c ok).1 := by
  cases hfind : findOpened st n c with
  | some i =>
      rw [openExchange_found_eq catalog st n c ok i hfind]
      obtain ⟨h, hget, hlive, hm⟩ := findOpened_spec st n c i hfind
      constructor
      · intro n2 c2
        have heq := modifyH_countP_eq st i (fun h0 => { h0 with refCount := h0.refCount + 1 })
          h (fun hh => hh.live && hmatches hh n2 c2) hget rfl
        have h1 := hu n2 c2
        show (addRef st i).countP (fun hh => hh.live && hmatches hh n2 c2) ≤ 1
        unfold addRef
        omega
      · intro h2 hmem
        have hmem2 : h2 ∈ addRef st i := hmem
        unfold addRef at hmem2
        rcases mem_modifyH st i _ h2 hmem2 with hin | ⟨h3, hget3, heq3⟩
        · exact hc h2 hin
        · have h3h : h3 = h := by rw [hget] at hget3; exact (Option.some.inj hget3).symm
          rw [h3h] at heq3
          rw [heq3]
          have hcnt := (hc h (get?_mem_st st i h hget)).1 hlive
          constructor
          · intro _
            show (1 : Int) ≤ h.refCount + 1
            omega
          · intro hlf
            rw [hlive] at hlf
            simp at hlf
  | none =>
      rw [openExchange_create_eq catalog st n c ok hfind]
      by_cases hcat : catalog.contains (resolveName c n) = true
      · rw [if_pos hcat]
        have hmid := createHandle_preserves st n c hres hfind hu hc
        cases ok with
        | true =>
            rw [if_pos rfl]
            exact hmid
        | false =>
            rw [if_neg (by simp)]
            exact closeExchange_preserves _ st.length hmid.1 hmid.2
      · rw [if_neg hcat]
        exact ⟨hu, hc⟩

theorem modifyH_get?_self (st : MState) (i : Nat) (f : HRec → HRec) (h : HRec)
    (hget : st.get? i = some h) : (modifyH st i f).get? i = some (f h) := by
  unfold modifyH
  rw [hget]
  rw [List.get?_set_eq, hget]
  rfl

theorem closeExchange_eq_terminate (st : MState) (i : Nat) (h : HRec)
    (hget : st.get? i = some h) (hfo : findOpened st h.hname h.hcreds ≠ none)
    (hdec : h.refCount - 1 ≤ 0) :
    closeExchange st i = modifyH st i fun h0 =>
      { h0 with refCount := h0.refCount - 1, terminated := true, live := false } := by
  unfold closeExchange
  split
  · rename_i hnone
    rw [hget] at hnone
    cases hnone
  · rename_i h2 hget2
    have hh : h2 = h := by rw [hget] at hget2; exact (Option.some.inj hget2).symm
    subst hh
    split
    · rename_i hfo2
      exact absurd hfo2 hfo
    · rename_i j hfo2
      rw [if_pos hdec]

/-- C1 (amended): starting from an empty pool, along any sequential
interleaving of `openExchange` and `closeExchange` calls in which every
open's credentials resolve to the name they are opened under
(`credentials.exchange` absent or equal to the name) — including the window
between a new handle being pushed into the open-set and its `init(symbol)`
settling, and opens interleaved inside that window — at most one live entry
exists per `(name, credentials)` identity, and a handle's reference count is
positive exactly while it is in the open-set.  (Without the resolution
restriction the claim fails, see the counterexample: an alias whose
`credentials.exchange` differs from the open name yields duplicate
entries.) -/
theorem c1_pool_invariant (catalog : List String) (st : MState)
    (h : ReachA catalog st) : uniqIdent st ∧ countsOk st := by
  induction h with
  | empty =>
      constructor
      · intro n c
        simp [uniqIdent, List.countP_nil]
      · intro h2 hmem
        simp at hmem
  | openStep st n c ok hre hres ih =>
      exact openExchange_preserves catalog st n c ok hres ih.1 ih.2
  | openMid st n c hre hres hfind ih =>
      exact createHandle_preserves st n c hres hfind ih.1 ih.2
  | closeStep st i hre ih =>
      exact closeExchange_preserves st i ih.1 ih.2

/-- Witness for C1's theorem at a concrete reachable state: one completed
`openExchange` on the `bitfinex` catalog entry. -/
theorem c1_pool_invariant_witness :
    uniqIdent (openExchange ["bitfinex"] [] "bitfinex" ⟨"bitfinex", none, "k"⟩ true).1 ∧
      countsOk (openExchange ["bitfinex"] [] "bitfinex" ⟨"bitfinex", none, "k"⟩ true).1 :=
  c1_pool_invariant ["bitfinex"] _
    (ReachA.openStep [] "bitfinex" ⟨"bitfinex", none, "k"⟩ true ReachA.empty (Or.inl rfl))

/-- C1 counterexample: the claim as stated (for arbitrary credentials) is
false.  With credentials whose `exchange` field names a catalog entry other
than the alias they are opened under, two sequential `openExchange` calls
with the same `(name, credentials)` leave two live entries of the same
handle identity in the open-set. -/
theorem c1_counterexample :
    ((openExchange ["bfx"] (openExchange ["bfx"] [] "alias" ⟨"alias", some "bfx", "k"⟩ true).1
        "alias" ⟨"alias", some "bfx", "k"⟩ true).1.countP
      fun h => h.live && hmatches h "bfx" ⟨"alias", some "bfx", "k"⟩) = 2 := by
  decide

/-- C2 (counterexample to the literal claim): the claim's side conditions
hold — the catalog `["bfx"]` resolves `("alias", credentials)` because
`credentials.exchange = "bfx"` is a catalog entry, and `init` succeeds —
yet two `openExchange` calls with the same `(name, credentials)` do not
return one shared handle at count 2: the first open registers a handle
named after the resolved catalog entry `bfx`, so the second open's
`findOpened("alias", credentials)` misses it and registers a second handle;
both sit at reference count 1 and the second call returns the new index 1,
not the first handle's index 0. -/
theorem c2_counterexample :
    (["bfx"].contains (resolveName ⟨"alias", some "bfx", "k"⟩ "alias") = true) ∧
    openExchange ["bfx"] [] "alias" ⟨"alias", some "bfx", "k"⟩ true =
      ([⟨"bfx", ⟨"alias", some "bfx", "k"⟩, 1, true, false⟩], some 0) ∧
    openExchange ["bfx"] [⟨"bfx", ⟨"alias", some "bfx", "k"⟩, 1, true, false⟩]
        "alias" ⟨"alias", some "bfx", "k"⟩ true =
      ([⟨"bfx", ⟨"alias", some "bfx", "k"⟩, 1, true, false⟩,
        ⟨"bfx", ⟨"alias", some "bfx", "k"⟩, 1, true, false⟩], some 1) :=
  ⟨by decide, by decide, by decide⟩

/-- C2 (amended): for a pool whose catalog resolves `(name, credentials)`
with the credentials resolving to the opened name itself
(`credentials.exchange` absent or equal to the name — without this the
lifecycle fails, as `c2_counterexample` shows) and whose handle's `init`
succeeds, opening twice from empty returns the same single handle (index 0)
with the shared reference count at 2; one `closeExchange` leaves it in the
open-set, not terminated, at count 1; a second `closeExchange` terminates it
and removes it from the open-set. -/
theorem c2_refcount_lifecycle (catalog : List String) (n : String) (c : Creds)
    (hres : c.exchange = none ∨ c.exchange = some n)
    (hcat : catalog.contains n = true) :
    openExchange catalog [] n c true = ([⟨n, c, 1, true, false⟩], some 0) ∧
    openExchange catalog [⟨n, c, 1, true, false⟩] n c true =
      ([⟨n, c, 2, true, false⟩], some 0) ∧
    closeExchange [⟨n, c, 2, true, false⟩] 0 = [⟨n, c, 1, true, false⟩] ∧
    closeExchange [⟨n, c, 1, true, false⟩] 0 = [⟨n, c, 0, false, true⟩] := by
  have hen : resolveName c n = n := by
    rcases hres with h | h <;> simp [resolveName, h]
  have hm : hmatches ⟨n, c, 1, true, false⟩ n c = true := by simp [hmatches]
  have hm2 : hmatches ⟨n, c, 2, true, false⟩ n c = true := by simp [hmatches]
  refine ⟨?_, ?_, ?_, ?_⟩
  · rw [openExchange_create_eq catalog [] n c true rfl, hen, if_pos hcat, if_pos rfl]
    simp [createHandle]
  · have hfind : findOpened [⟨n, c, 1, true, false⟩] n c = some 0 := by
      simp [findOpened, findOpenedAux, hm]
    rw [openExchange_found_eq catalog _ n c true 0 hfind]
    simp [addRef, modifyH]
  · have hfind : findOpened [⟨n, c, 2, true, false⟩] n c = some 0 := by
      simp [findOpened, findOpenedAux, hm2]
    unfold closeExchange
    rw [show ([⟨n, c, 2, true, false⟩] : MState).get? 0 = some ⟨n, c, 2, true, false⟩ from rfl]
    simp only [hfind]
    rw [if_neg (by norm_num)]
    simp [modifyH]
  · have hfind : findOpened [⟨n, c, 1, true, false⟩] n c = some 0 := by
      simp [findOpened, findOpenedAux, hm]
    rw [closeExchange_eq_terminate [⟨n, c, 1, true, false⟩] 0 ⟨n, c, 1, true, false⟩ rfl
      (by rw [hfind]; simp) (by norm_num)]
    simp [modifyH]

/-- Witness for C2's theorem at concrete inputs. -/
theorem c2_refcount_lifecycle_witness :
    openExchange ["bitfinex"] [] "bitfinex" ⟨"bitfinex", none, "k"⟩ true =
      ([⟨"bitfinex", ⟨"bitfinex", none, "k"⟩, 1, true, false⟩], some 0) ∧
    openExchange ["bitfinex"] [⟨"bitfinex", ⟨"bitfinex", none, "k"⟩, 1, true, false⟩]
        "bitfinex" ⟨"bitfinex", none, "k"⟩ true =
      ([⟨"bitfinex", ⟨"bitfinex", none, "k"⟩, 2, true, false⟩], some 0) ∧
    closeExchange [⟨"bitfinex", ⟨"bitfinex", none, "k"⟩, 2, true, false⟩] 0 =
      [⟨"bitfinex", ⟨"bitfinex", none, "k"⟩, 1, true, false⟩] ∧
    closeExchange [⟨"bitfinex", ⟨"bitfinex", none, "k"⟩, 1, true, false⟩] 0 =
      [⟨"bitfinex", ⟨"bitfinex", none, "k"⟩, 0, false, true⟩] :=
  c2_refcount_lifecycle ["bitfinex"] "bitfinex" ⟨"bitfinex", none, "k"⟩ (Or.inl rfl) (by decide)

/-- C3 counterexample: an `openExchange` whose `init` fails does not
forcibly destroy the new handle regardless of its reference count.  Trace:
call A pushes the new handle (count 1) and suspends in `init`; call B finds
it and bumps the count to 2; call A's `init` failure runs `closeExchange`,
which decrements to 1 and leaves the handle live and unterminated in the
open-set. -/
theorem c3_counterexample :
    closeExchange
      (openExchange ["x"] (createHandle [] "x" ⟨"cx", none, "k"⟩).1 "x" ⟨"cx", none, "k"⟩ true).1
      0 = [⟨"x", ⟨"cx", none, "k"⟩, 1, true, false⟩] := by
  decide

/-- C3 (amended): for every `openExchange` call that creates a new handle
whose `init(symbol)` fails, the failure is logged and the handle is closed
through the ordinary `closeExchange` path — its reference count is
decremented and it is terminated and removed exactly when the count reaches
zero; with no interleaved open during initialization the count is 1, so the
handle is terminated and removed, and `openExchange` returns none (a handle
whose count was raised during the window instead survives with the
decremented count, as the counterexample shows). -/
theorem c3_init_failure (catalog : List String) (st : MState) (n : String) (c : Creds)
    (hfind : findOpened st n c = none)
    (hcat : catalog.contains (resolveName c n) = true) :
    (openExchange catalog st n c false).2 = none ∧
    (openExchange catalog st n c false).1.get? st.length =
      some ⟨resolveName c n, c, 0, false, true⟩ := by
  rw [openExchange_create_eq catalog st n c false hfind, if_pos hcat, if_neg (by simp)]
  refine ⟨rfl, ?_⟩
  have hget1 : ((createHandle st (resolveName c n) c).1).get? st.length =
      some ⟨resolveName c n, c, 1, true, false⟩ := by
    show (st ++ [(⟨resolveName c n, c, 1, true, false⟩ : HRec)]).get? st.length = _
    exact List.get?_concat_length st _
  rw [closeExchange_eq_terminate _ st.length ⟨resolveName c n, c, 1, true, false⟩ hget1
    (findOpened_ne_none _ _ _ ⟨resolveName c n, c, 1, true, false⟩
      (by simp [createHandle]) rfl (by simp [hmatches])) (by norm_num)]
  rw [modifyH_get?_self _ st.length _ _ hget1]
  norm_num

/-- Witness for C3's amended theorem at concrete inputs. -/
theorem c3_init_failure_witness :
    (openExchange ["x"] [] "x" ⟨"cx", none, "k"⟩ false).2 = none ∧
    (openExchange ["x"] [] "x" ⟨"cx", none, "k"⟩ false).1.get? 0 =
      some ⟨"x", ⟨"cx", none, "k"⟩, 0, false, true⟩ :=
  c3_init_failure ["x"] [] "x" ⟨"cx", none, "k"⟩ rfl (by decide)

/-- Names of the executed actions among a sequence's events, in order. -/
def ranNames (evs : List SeqEvent) : List String :=
  evs.filterMap fun e =>
    match e with
    | SeqEvent.ran n _ => some n
    | SeqEvent.failLog _ => none

/-- Number of failures logged among a sequence's events. -/
def failCount (evs : List SeqEvent) : Nat :=
  evs.countP fun e =>
    match e with
    | SeqEvent.ran _ _ => false
    | SeqEvent.failLog _ => true

theorem eachSeries_seqIterator (oracle : String → List Param → Bool) :
    ∀ l : List ExAction,
      (eachSeries (seqIterator oracle) l).2 = none ∧
      ranNames (eachSeries (seqIterator oracle) l).1 = l.map (fun a => a.name) ∧
      failCount (eachSeries (seqIterator oracle) l).1 =
        (l.filter fun a => !oracle a.name a.params).length := by
  intro l
  induction l with
  | nil => simp [eachSeries, ranNames, failCount]
  | cons a rest ih =>
      obtain ⟨ih1, ih2, ih3⟩ := ih
      by_cases ho : oracle a.name a.params = true
      · have hit : seqIterator oracle a = ([SeqEvent.ran a.name a.params], none) := by
          unfold seqIterator
          rw [if_pos ho]
        simp only [eachSeries, hit]
        refine ⟨ih1, ?_, ?_⟩
        · simp only [ranNames, List.filterMap_append, List.map] at ih2 ⊢
          rw [ih2]
          rfl
        · simp only [failCount, List.countP_append] at ih3 ⊢
          rw [ih3]
          have hfa : rest.filter (fun a2 => !oracle a2.name a2.params) =
              (a :: rest).filter (fun a2 => !oracle a2.name a2.params) := by
            simp [List.filter_cons, ho]
          rw [← hfa]
          simp [List.countP_cons]
      · have ho2 : oracle a.name a.params = false := by
          cases hq : oracle a.name a.params
          · rfl
          · exact absurd hq ho
        have hit : seqIterator oracle a =
            ([SeqEvent.ran a.name a.params, SeqEvent.failLog a.name], none) := by
          unfold seqIterator
          rw [ho2]
          simp
        simp only [eachSeries, hit]
        refine ⟨ih1, ?_, ?_⟩
        · simp only [ranNames, List.filterMap_append, List.map] at ih2 ⊢
          rw [ih2]
          rfl
        · simp only [failCount, List.countP_append] at ih3 ⊢
          rw [ih3]
          simp [List.filter_cons, ho2, List.countP_cons]
          omega

/-- C4: for a non-empty symbol and non-empty action text,
`executeCommandSequence` executes every parsed action in order (the executed
names are exactly the parsed names, sequentially), a rejecting action is
reported and the next action still runs (one failure log per failing
action), and the returned promise resolves; in particular on a three-action
list whose second action alone fails, all three run, exactly one failure is
logged, and the sequence resolves. -/
theorem c4_failure_tolerance (oracle : String → List Param → Bool)
    (symbol commands : String) (hs : ¬symbol = "") (hcmd : ¬commands = "") :
    (executeCommandSequence oracle symbol commands).resolved = true ∧
    ranNames (executeCommandSequence oracle symbol commands).events =
      (parseActions commands).map (fun a => a.name) ∧
    failCount (executeCommandSequence oracle symbol commands).events =
      ((parseActions commands).filter fun a => !oracle a.name a.params).length ∧
    executeCommandSequence (fun nm _ => !(nm == "oops")) "SYM" "buy(1) oops(2) sell(3)" =
      ⟨[SeqEvent.ran "buy" [⟨"", "1", 0⟩], SeqEvent.ran "oops" [⟨"", "2", 0⟩],
        SeqEvent.failLog "oops", SeqEvent.ran "sell" [⟨"", "3", 0⟩]], true⟩ := by
  have hcond : ¬(symbol = "" ∨ commands = "") := by
    intro hor
    rcases hor with h | h
    · exact hs h
    · exact hcmd h
  have hgen := eachSeries_seqIterator oracle (parseActions commands)
  unfold executeCommandSequence
  rw [if_neg hcond]
  refine ⟨?_, ?_, ?_, by decide⟩
  · show (eachSeries (seqIterator oracle) (parseActions commands)).2.isNone = true
    rw [hgen.1]
    rfl
  · show ranNames (eachSeries (seqIterator oracle) (parseActions commands)).1 = _
    exact hgen.2.1
  · show failCount (eachSeries (seqIterator oracle) (parseActions commands)).1 = _
    exact hgen.2.2

/-- Witness for C4's theorem at concrete inputs. -/
theorem c4_failure_tolerance_witness :
    (executeCommandSequence (fun nm _ => !(nm == "oops")) "SYM" "buy(1) oops(2) sell(3)").resolved = true ∧
    ranNames (executeCommandSequence (fun nm _ => !(nm == "oops")) "SYM" "buy(1) oops(2) sell(3)").events =
      (parseActions "buy(1) oops(2) sell(3)").map (fun a => a.name) ∧
    failCount (executeCommandSequence (fun nm _ => !(nm == "oops")) "SYM" "buy(1) oops(2) sell(3)").events =
      ((parseActions "buy(1) oops(2) sell(3)").filter
        fun a => !(fun nm (_ : List Param) => !(nm == "oops")) a.name a.params).length ∧
    executeCommandSequence (fun nm _ => !(nm == "oops")) "SYM" "buy(1) oops(2) sell(3)" =
      ⟨[SeqEvent.ran "buy" [⟨"", "1", 0⟩], SeqEvent.ran "oops" [⟨"", "2", 0⟩],
        SeqEvent.failLog "oops", SeqEvent.ran "sell" [⟨"", "3", 0⟩]], true⟩ :=
  c4_failure_tolerance (fun nm _ => !(nm == "oops")) "SYM" "buy(1) oops(2) sell(3)"
    (by decide) (by decide)

theorem openExchange_succeeds (catalog : List String) (st : MState) (n : String)
    (c : Creds) (hcat : catalog.contains (resolveName c n) = true) :
    ∃ st1 hi, openExchange catalog st n c true = (st1, some hi) := by
  cases hfind : findOpened st n c with
  | some i =>
      rw [openExchange_found_eq catalog st n c true i hfind]
      exact ⟨addRef st i, i, rfl⟩
  | none =>
      rw [openExchange_create_eq catalog st n c true hfind, if_pos hcat, if_pos rfl]
      exact ⟨(createHandle st (resolveName c n) c).1, st.length, rfl⟩

theorem dispatchStep_noCreds (catalog : List String) (initOk : String → Creds → Bool)
    (oracle : String → List Param → Bool) (credentials : List Creds)
    (i : Nat) (en sym act : String) (st : MState)
    (hf : credentials.find? (fun c => c.name == en) = none) :
    dispatchStep catalog initOk oracle credentials (i, (en, sym, act)) st =
      ⟨none, some ("No credentials for '" ++ en ++ "'. Skipping"), st, none⟩ := by
  unfold dispatchStep
  dsimp only
  rw [hf]

theorem dispatchStep_found (catalog : List String) (initOk : String → Creds → Bool)
    (oracle : String → List Param → Bool) (credentials : List Creds)
    (i : Nat) (en sym act : String) (c : Creds) (st : MState)
    (hf : credentials.find? (fun cr => cr.name == en) = some c) :
    dispatchStep catalog initOk oracle credentials (i, (en, sym, act)) st =
      dispatchOpen catalog initOk oracle i en sym act c st := by
  unfold dispatchStep
  dsimp only
  rw [hf]

theorem dispatchOpen_ok (catalog : List String) (initOk : String → Creds → Bool)
    (oracle : String → List Param → Bool) (i : Nat) (en sym act : String)
    (c : Creds) (st st1 : MState) (hi : Nat)
    (hoe : openExchange catalog st en c (initOk en c) = (st1, some hi)) :
    dispatchOpen catalog initOk oracle i en sym act c st =
      ⟨some (Completion.block i (executeCommandSequence oracle sym act)), none, st1, some hi⟩ := by
  unfold dispatchOpen
  rw [hoe]

theorem dispatchBlocks_noCreds_err (catalog : List String)
    (initOk : String → Creds → Bool) (oracle : String → List Param → Bool)
    (credentials : List Creds) :
    ∀ (bs : List (Nat × (String × String × String))) (st : MState)
      (ib : Nat × (String × String × String)), ib ∈ bs →
      credentials.find? (fun c => c.name == ib.2.1) = none →
      ("No credentials for '" ++ ib.2.1 ++ "'. Skipping") ∈
        (dispatchBlocks catalog initOk oracle credentials bs st).errors := by
  intro bs
  induction bs with
  | nil => intro st ib hmem; simp at hmem
  | cons b rest ih =>
      intro st ib hmem hnone
      rcases List.mem_cons.mp hmem with he | hm
      · subst he
        obtain ⟨i, en, sym, act⟩ := ib
        simp only [dispatchBlocks]
        rw [dispatchStep_noCreds catalog initOk oracle credentials i en sym act st hnone]
        exact List.mem_cons_self _ _
      · simp only [dispatchBlocks]
        exact List.mem_append_right _
          (ih (dispatchStep catalog initOk oracle credentials b st).state ib hm hnone)

theorem dispatchBlocks_dispatched_mem (catalog : List String)
    (initOk : String → Creds → Bool) (oracle : String → List Param → Bool)
    (credentials : List Creds) :
    ∀ (bs : List (Nat × (String × String × String))) (st : MState)
      (ib : Nat × (String × String × String)), ib ∈ bs →
      ∀ c : Creds, credentials.find? (fun cr => cr.name == ib.2.1) = some c →
      catalog.contains (resolveName c ib.2.1) = true →
      initOk ib.2.1 c = true →
      Completion.block ib.1 (executeCommandSequence oracle ib.2.2.1 ib.2.2.2) ∈
        (dispatchBlocks catalog initOk oracle credentials bs st).completions := by
  intro bs
  induction bs with
  | nil => intro st ib hmem; simp at hmem
  | cons b rest ih =>
      intro st ib hmem c hfound hcat hinit
      rcases List.mem_cons.mp hmem with he | hm
      · subst he
        obtain ⟨i, en, sym, act⟩ := ib
        obtain ⟨st1, hi, hoe⟩ := openExchange_succeeds catalog st en c hcat
        have hoe2 : openExchange catalog st en c (initOk en c) = (st1, some hi) := by
          rw [hinit]; exact hoe
        have hstep : dispatchStep catalog initOk oracle credentials (i, (en, sym, act)) st =
            ⟨some (Completion.block i (executeCommandSequence oracle sym act)), none, st1, some hi⟩ :=
          (dispatchStep_found catalog initOk oracle credentials i en sym act c st hfound).trans
            (dispatchOpen_ok catalog initOk oracle i en sym act c st st1 hi hoe2)
        simp only [dispatchBlocks]
        rw [hstep]
        simp
      · simp only [dispatchBlocks]
        exact List.mem_append_right _
          (ih (dispatchStep catalog initOk oracle credentials b st).state ib hm c hfound hcat hinit)

/-- C5 (amended): `executeMessage` returns, without awaiting anything, the
mutable collection that the scheduled block callbacks will later fill: at
the moment of returning it contains only the initial resolved placeholder
(the per-block completions are pushed only after the dispatcher has
returned, because the `async` callback suspends at its first `await` before
its push runs); every dispatched block's completion is in the collection's
final content; a block with no matching credentials is reported and
skipped, and the remaining blocks are still dispatched. -/
theorem c5_dispatcher_return (catalog : List String) (initOk : String → Creds → Bool)
    (oracle : String → List Param → Bool) (msg : String) (credentials : List Creds)
    (st : MState) :
    (executeMessage catalog initOk oracle msg credentials st).allAtReturn =
      [Completion.placeholder] ∧
    (∀ ib ∈ (commandBlocksList msg).enum,
      credentials.find? (fun c => c.name == ib.2.1) = none →
      ("No credentials for '" ++ ib.2.1 ++ "'. Skipping") ∈
        (executeMessage catalog initOk oracle msg credentials st).errors) ∧
    (∀ ib ∈ (commandBlocksList msg).enum, ∀ c : Creds,
      credentials.find? (fun cr => cr.name == ib.2.1) = some c →
      catalog.contains (resolveName c ib.2.1) = true →
      initOk ib.2.1 c = true →
      Completion.block ib.1 (executeCommandSequence oracle ib.2.2.1 ib.2.2.2) ∈
        (executeMessage catalog initOk oracle msg credentials st).allFinal) := by
  refine ⟨rfl, ?_, ?_⟩
  · intro ib hmem hnone
    exact dispatchBlocks_noCreds_err catalog initOk oracle credentials
      (commandBlocksList msg).enum st ib hmem hnone
  · intro ib hmem c hfound hcat hinit
    exact List.mem_cons_of_mem _
      (dispatchBlocks_dispatched_mem catalog initOk oracle credentials
        (commandBlocksList msg).enum st ib hmem c hfound hcat hinit)

/-- C5 counterexample: the claim as stated is false — at the moment
`executeMessage` returns, the returned collection does not yet contain the
completion of the dispatched block; the completion appears only in the
collection's final content.  One block with matching credentials and a
successfully opened exchange is dispatched, yet `allAtReturn` holds only the
placeholder. -/
theorem c5_counterexample :
    (executeMessage ["abc"] (fun _ _ => true) (fun _ _ => true)
        "abc(SYM)\x7bbuy(1)\x7d" [⟨"abc", none, "k"⟩] []).allAtReturn =
      [Completion.placeholder] ∧
    (executeMessage ["abc"] (fun _ _ => true) (fun _ _ => true)
        "abc(SYM)\x7bbuy(1)\x7d" [⟨"abc", none, "k"⟩] []).allFinal =
      [Completion.placeholder,
        Completion.block 0 ⟨[SeqEvent.ran "buy" [⟨"", "1", 0⟩]], true⟩] := by
  constructor
  · rfl
  · decide

/-- Witness for C5's amended theorem at concrete inputs: a two-block
message whose first block has no credentials — the error is recorded and
the second block's completion is still scheduled. -/
theorem c5_dispatcher_return_witness :
    ("No credentials for 'nope'. Skipping") ∈
      (executeMessage ["abc"] (fun _ _ => true) (fun _ _ => true)
        "nope(A)\x7bx(1)\x7d abc(B)\x7by(2)\x7d" [⟨"abc", none, "k"⟩] []).errors ∧
    Completion.block 1 (executeCommandSequence (fun _ _ => true) "B" "y(2)") ∈
      (executeMessage ["abc"] (fun _ _ => true) (fun _ _ => true)
        "nope(A)\x7bx(1)\x7d abc(B)\x7by(2)\x7d" [⟨"abc", none, "k"⟩] []).allFinal := by
  constructor
  · exact (c5_dispatcher_return ["abc"] (fun _ _ => true) (fun _ _ => true)
      "nope(A)\x7bx(1)\x7d abc(B)\x7by(2)\x7d" [⟨"abc", none, "k"⟩] []).2.1
      (0, ("nope", "A", "x(1)")) (by decide) (by decide)
  · exact (c5_dispatcher_return ["abc"] (fun _ _ => true) (fun _ _ => true)
      "nope(A)\x7bx(1)\x7d abc(B)\x7by(2)\x7d" [⟨"abc", none, "k"⟩] []).2.2
      (1, ("abc", "B", "y(2)")) (by decide) ⟨"abc", none, "k"⟩ (by decide) (by decide) (by decide)

/-- The literal alert marker starts at the head of `s`. -/
def markerAt (s : List Char) : Bool :=
  match s with
  | c1 :: c2 :: c3 :: _ => c1 == '{' && c2 == '!' && c3 == '}'
  | _ => false

/-- The literal alert marker occurs somewhere in `s`. -/
def hasMarker : List Char → Bool
  | [] => false
  | c :: rest => markerAt (c :: rest) || hasMarker rest

/-- Number of positions of `s` at which the alert marker starts. -/
def markerCount : List Char → Nat
  | [] => 0
  | c :: rest => (if markerAt (c :: rest) then 1 else 0) + markerCount rest

theorem drop_succ_of_drop_cons (s : List Char) (i : Nat) (c : Char)
    (t : List Char) (h : s.drop i = c :: t) : s.drop (i + 1) = t := by
  have h2 : s.drop (i + 1) = (s.drop i).drop 1 := by
    rw [List.drop_drop]
  rw [h2, h]
  rfl

theorem matchList_markerRE (u : List Char) (p : Nat) :
    matchList markerRE u p = if markerAt (u.drop p) then [(p + 3, [])] else [] := by
  rcases h1 : u.drop p with _ | ⟨c1, t1⟩
  · simp [markerRE, lit, matchList, h1, markerAt]
  · have hd1 : u.drop (p + 1) = t1 := drop_succ_of_drop_cons u p c1 t1 h1
    rcases h2 : t1 with _ | ⟨c2, t2⟩
    · subst h2
      by_cases hc1 : c1 = '{'
      · subst hc1
        simp [markerRE, lit, matchList, h1, hd1, markerAt]
      · simp [markerRE, lit, matchList, h1, hd1, markerAt, hc1]
    · subst h2
      have hd2 : u.drop (p + 1 + 1) = t2 := drop_succ_of_drop_cons u (p + 1) c2 t2 hd1
      rcases h3 : t2 with _ | ⟨c3, t3⟩
      · subst h3
        by_cases hc1 : c1 = '{' <;> by_cases hc2 : c2 = '!'
        · subst hc1; subst hc2
          simp [markerRE, lit, matchList, h1, hd1, hd2, markerAt]
        · subst hc1
          simp [markerRE, lit, matchList, h1, hd1, hd2, markerAt, hc2]
        · subst hc2
          simp [markerRE, lit, matchList, h1, hd1, hd2, markerAt, hc1]
        · simp [markerRE, lit, matchList, h1, hd1, hd2, markerAt, hc1, hc2]
      · subst h3
        have hd3 : u.drop (p + 1 + 1 + 1) = t3 := drop_succ_of_drop_cons u (p + 1 + 1) c3 t3 hd2
        by_cases hc1 : c1 = '{' <;> by_cases hc2 : c2 = '!' <;> by_cases hc3 : c3 = '}'
        · subst hc1; subst hc2; subst hc3
          have : p + 1 + 1 + 1 = p + 3 := by omega
          simp [markerRE, lit, matchList, h1, hd1, hd2, markerAt, this]
        · subst hc1; subst hc2
          simp [markerRE, lit, matchList, h1, hd1, hd2, markerAt, hc3]
        · subst hc1; subst hc3
          simp [markerRE, lit, matchList, h1, hd1, hd2, markerAt, hc2]
        · subst hc1
          simp [markerRE, lit, matchList, h1, hd1, hd2, markerAt, hc2, hc3]
        · subst hc2; subst hc3
          simp [markerRE, lit, matchList, h1, hd1, hd2, markerAt, hc1]
        · subst hc2
          simp [markerRE, lit, matchList, h1, hd1, hd2, markerAt, hc1, hc3]
        · subst hc3
          simp [markerRE, lit, matchList, h1, hd1, hd2, markerAt, hc1, hc2]
        · simp [markerRE, lit, matchList, h1, hd1, hd2, markerAt, hc1, hc2, hc3]

theorem fmAux_none_all (re : RE) (s : List Char) :
    ∀ f i, s.length + 1 - i ≤ f → fmAux re s f i = none →
      ∀ p, i ≤ p → p ≤ s.length → matchList re s p = [] := by
  intro f
  induction f with
  | zero =>
      intro i hf hnone p hip hps
      omega
  | succ f ih =>
      intro i hf hnone p hip hps
      simp only [fmAux] at hnone
      by_cases hlt : s.length < i
      · omega
      · simp only [if_neg hlt] at hnone
        cases hm : matchList re s i with
        | cons r rest => rw [hm] at hnone; cases hnone
        | nil =>
            rw [hm] at hnone
            by_cases hp : p = i
            · rw [hp]; exact hm
            · by_cases hlt2 : i < s.length
              · simp only [if_pos hlt2] at hnone
                exact ih (i + 1) (by omega) hnone p (by omega) hps
              · omega

theorem fmAux_min (re : RE) (s : List Char) :
    ∀ f i a b cs, fmAux re s f i = some (a, b, cs) →
      (∀ p, i ≤ p → p < a → matchList re s p = []) ∧
      matchList re s a ≠ [] ∧ (b, cs) ∈ matchList re s a ∧
      ∀ r2, matchList re s a = r2 :: (matchList re s a).tail → r2 = (b, cs) := by
  intro f
  induction f with
  | zero => intro i a b cs h; simp [fmAux] at h
  | succ f ih =>
      intro i a b cs h
      simp only [fmAux] at h
      by_cases hlt : s.length < i
      · simp [hlt] at h
      · simp only [if_neg hlt] at h
        cases hm : matchList re s i with
        | cons r rest =>
            rw [hm] at h
            simp only [Option.some.injEq, Prod.mk.injEq] at h
            obtain ⟨ha, hb, hcs⟩ := h
            subst ha
            refine ⟨fun p h1 h2 => by omega, by rw [hm]; simp, ?_, ?_⟩
            · rw [hm, ← hb, ← hcs]
              exact List.mem_cons_self r rest
            · intro r2 hr2
              rw [hm] at hr2
              simp only [List.tail_cons] at hr2
              have : r2 = r := (List.cons.inj hr2).1.symm
              rw [this, ← hb, ← hcs]
        | nil =>
            rw [hm] at h
            by_cases hlt2 : i < s.length
            · simp only [if_pos hlt2] at h
              obtain ⟨hmin, hne, hmem, hhead⟩ := ih (i + 1) a b cs h
              refine ⟨?_, hne, hmem, hhead⟩
              intro p h1 h2
              by_cases hpi : p = i
              · rw [hpi]; exact hm
              · exact hmin p (by omega) h2
            · simp [hlt2] at h

theorem hasMarker_of_markerAt_drop :
    ∀ (u : List Char) (j : Nat), markerAt (u.drop j) = true → hasMarker u = true := by
  intro u
  induction u with
  | nil => intro j h; simp at h; exact absurd h (by simp [markerAt])
  | cons c rest ih =>
      intro j h
      cases j with
      | zero =>
          simp only [List.drop_zero] at h
          simp [hasMarker, h]
      | succ j =>
          have : (c :: rest).drop (j + 1) = rest.drop j := rfl
          rw [this] at h
          simp [hasMarker, ih j h]

theorem hasMarker_iff_exists (u : List Char) :
    hasMarker u = true ↔ ∃ j, markerAt (u.drop j) = true := by
  constructor
  · intro h
    induction u with
    | nil => simp [hasMarker] at h
    | cons c rest ih =>
        simp only [hasMarker, Bool.or_eq_true] at h
        rcases h with h | h
        · exact ⟨0, by simpa using h⟩
        · obtain ⟨j, hj⟩ := ih h
          exact ⟨j + 1, by simpa using hj⟩
  · intro ⟨j, hj⟩
    exact hasMarker_of_markerAt_drop u j hj

theorem hasMarker_append_right (s t : List Char) (h : hasMarker t = true) :
    hasMarker (s ++ t) = true := by
  induction s with
  | nil => simpa using h
  | cons c rest ih =>
      simp only [List.cons_append, hasMarker, Bool.or_eq_true]
      exact Or.inr ih

theorem markerAt_shape (w : List Char) (h : markerAt w = true) :
    ∃ rest, w = '{' :: '!' :: '}' :: rest := by
  rcases w with _ | ⟨c1, _ | ⟨c2, _ | ⟨c3, rest⟩⟩⟩
  · simp [markerAt] at h
  · simp [markerAt] at h
  · simp [markerAt] at h
  · simp only [markerAt, Bool.and_eq_true, beq_iff_eq] at h
    obtain ⟨⟨h1, h2⟩, h3⟩ := h
    exact ⟨rest, by rw [h1, h2, h3]⟩

theorem hasMarker_append_left (s t : List Char) (h : hasMarker s = true) :
    hasMarker (s ++ t) = true := by
  obtain ⟨j, hj⟩ := (hasMarker_iff_exists s).mp h
  obtain ⟨rest, hrest⟩ := markerAt_shape (s.drop j) hj
  apply (hasMarker_iff_exists (s ++ t)).mpr
  refine ⟨j, ?_⟩
  have hjlt : j < s.length := by
    by_contra hge
    have hnil : s.drop j = [] := List.drop_eq_nil_of_le (by omega)
    rw [hnil] at hrest; cases hrest
  have hdrop : (s ++ t).drop j = s.drop j ++ t := List.drop_append_of_le_length (by omega)
  rw [hdrop, hrest]
  simp [markerAt]

theorem exists_marker_of_count_pos :
    ∀ u : List Char, 1 ≤ markerCount u → ∃ j, markerAt (u.drop j) = true := by
  intro u
  induction u with
  | nil => intro h; simp [markerCount] at h
  | cons c rest ih =>
      intro h
      by_cases hm : markerAt (c :: rest) = true
      · exact ⟨0, by simpa using hm⟩
      · have hm0 : markerAt (c :: rest) = false := by
          cases hq : markerAt (c :: rest)
          · rfl
          · exact absurd hq hm
        simp only [markerCount, hm0, Bool.false_eq_true, if_false] at h
        obtain ⟨j, hj⟩ := ih (by omega)
        exact ⟨j + 1, by simpa using hj⟩

theorem exists_two_markers :
    ∀ u : List Char, 2 ≤ markerCount u →
      ∃ i j, i < j ∧ markerAt (u.drop i) = true ∧ markerAt (u.drop j) = true := by
  intro u
  induction u with
  | nil => intro h; simp [markerCount] at h
  | cons c rest ih =>
      intro h
      by_cases hm : markerAt (c :: rest) = true
      · simp only [markerCount, hm, if_pos] at h
        obtain ⟨j, hj⟩ := exists_marker_of_count_pos rest (by omega)
        exact ⟨0, j + 1, by omega, by simpa using hm, by simpa using hj⟩
      · have hm0 : markerAt (c :: rest) = false := by
          cases hq : markerAt (c :: rest)
          · rfl
          · exact absurd hq hm
        simp only [markerCount, hm0, Bool.false_eq_true, if_false] at h
        obtain ⟨i, j, hij, hi, hj⟩ := ih (by omega)
        exact ⟨i + 1, j + 1, by omega, by simpa using hi, by simpa using hj⟩

theorem marker_gap (u : List Char) (i j : Nat) (hi : markerAt (u.drop i) = true)
    (hj : markerAt (u.drop j) = true) (hij : i < j) : i + 3 ≤ j := by
  obtain ⟨r, hr⟩ := markerAt_shape (u.drop i) hi
  have hd1 : u.drop (i + 1) = '!' :: '}' :: r := drop_succ_of_drop_cons u i '{' _ hr
  have hd2 : u.drop (i + 1 + 1) = '}' :: r := drop_succ_of_drop_cons u (i + 1) '!' _ hd1
  by_cases h1 : j = i + 1
  · subst h1
    rw [hd1] at hj
    rcases r with _ | ⟨c3, r3⟩
    · simp [markerAt] at hj
    · simp only [markerAt] at hj
      rw [show ('!' == '{') = false from by decide] at hj
      simp at hj
  · by_cases h2 : j = i + 2
    · subst h2
      have harith : i + 2 = i + 1 + 1 := by omega
      rw [harith, hd2] at hj
      rcases r with _ | ⟨c3, _ | ⟨c4, r4⟩⟩
      · simp [markerAt] at hj
      · simp [markerAt] at hj
      · simp only [markerAt] at hj
        rw [show ('}' == '{') = false from by decide] at hj
        simp at hj
    · omega

theorem replaceFirst_eq_none (re : RE) (s repl : List Char)
    (h : firstMatchFrom re s 0 = none) : replaceFirst re s repl = s := by
  unfold replaceFirst
  rw [h]

theorem replaceFirst_eq_some (re : RE) (s repl : List Char) (a b : Nat) (cs : Caps)
    (h : firstMatchFrom re s 0 = some (a, b, cs)) :
    replaceFirst re s repl = extract s 0 a ++ repl ++ s.drop b := by
  unfold replaceFirst
  rw [h]

theorem replaceFirst_marker_of_two (u : List Char) (h2 : 2 ≤ markerCount u) :
    hasMarker (replaceFirst markerRE u []) = true := by
  cases hfm : firstMatchFrom markerRE u 0 with
  | none =>
      rw [replaceFirst_eq_none markerRE u [] hfm]
      obtain ⟨j, hj⟩ := exists_marker_of_count_pos u (by omega)
      exact hasMarker_of_markerAt_drop u j hj
  | some r =>
      obtain ⟨a, b, cs⟩ := r
      rw [replaceFirst_eq_some markerRE u [] a b cs hfm]
      obtain ⟨hmin, hne, hmem, hhead⟩ := fmAux_min markerRE u (u.length + 1 - 0) 0 a b cs hfm
      have hma : markerAt (u.drop a) = true := by
        by_contra hcon
        have hfalse : markerAt (u.drop a) = false := by
          cases hq : markerAt (u.drop a)
          · rfl
          · exact absurd hq hcon
        have hml := matchList_markerRE u a
        rw [hfalse] at hml
        simp only [Bool.false_eq_true, if_false] at hml
        exact hne hml
      have hml := matchList_markerRE u a
      rw [hma, if_pos rfl] at hml
      have hb : b = a + 3 := by
        rw [hml] at hmem
        simp at hmem
        exact hmem.1
      obtain ⟨i, j, hij, hmi, hmj⟩ := exists_two_markers u h2
      have hge : ∀ p, markerAt (u.drop p) = true → a ≤ p := by
        intro p hp
        by_contra hlt
        have hp3 : p ≤ u.length := by
          obtain ⟨r2, hr2⟩ := markerAt_shape (u.drop p) hp
          by_contra hgt
          have : u.drop p = [] := List.drop_eq_nil_of_le (by omega)
          rw [this] at hr2; cases hr2
        have hml2 := hmin p (by omega) (by omega)
        rw [matchList_markerRE, hp, if_pos rfl] at hml2
        cases hml2
      have hja := hge j hmj
      have hia := hge i hmi
      have hj3 : a + 3 ≤ j := by
        by_cases heq : i = a
        · exact marker_gap u a j hma hmj (by omega)
        · exact marker_gap u a j hma hmj (by omega)
      have hmdrop : markerAt ((u.drop b).drop (j - b)) = true := by
        rw [List.drop_drop]
        have harith : b + (j - b) = j := by omega
        rw [harith]
        exact hmj
      exact hasMarker_append_right _ (u.drop b)
        (hasMarker_of_markerAt_drop (u.drop b) (j - b) hmdrop)

theorem runLen_head (q : Char → Bool) (s : List Char) (i : Nat)
    (h : 0 < runLen q s i) :
    ∃ c t, s.drop i = c :: t ∧ q c = true ∧ runLen q s i = runLen q s (i + 1) + 1 := by
  rcases hdrop : s.drop i with _ | ⟨c, t⟩
  · unfold runLen at h
    rw [hdrop] at h
    simp at h
  · have ht : s.drop (i + 1) = t := drop_succ_of_drop_cons s i c t hdrop
    by_cases hq : q c = true
    · refine ⟨c, t, rfl, hq, ?_⟩
      unfold runLen
      rw [hdrop, ht, List.takeWhile_cons, if_pos hq]
      simp
    · unfold runLen at h
      rw [hdrop, List.takeWhile_cons, if_neg hq] at h
      simp at h

theorem runLen_pos_head (q : Char → Bool) (s : List Char) :
    ∀ (k i : Nat), k < runLen q s i → ∃ c t, s.drop (i + k) = c :: t ∧ q c = true := by
  intro k
  induction k with
  | zero =>
      intro i h
      obtain ⟨c, t, hd, hq, _⟩ := runLen_head q s i h
      exact ⟨c, t, by simpa using hd, hq⟩
  | succ k ih =>
      intro i h
      obtain ⟨c, t, hd, hq, hsucc⟩ := runLen_head q s i (by omega)
      have hk : k < runLen q s (i + 1) := by omega
      obtain ⟨c2, t2, hd2, hq2⟩ := ih (i + 1) hk
      refine ⟨c2, t2, ?_, hq2⟩
      have : i + (k + 1) = i + 1 + k := by omega
      rw [this]
      exact hd2

theorem mem_matchList_wsRun (v : List Char) (a b : Nat) (cs : Caps)
    (hmem : (b, cs) ∈ matchList wsRunRE v a) :
    ∃ k, 1 ≤ k ∧ k ≤ runLen jsWs v a ∧ b = a + k := by
  simp only [wsRunRE, matchList, List.mem_map] at hmem
  obtain ⟨k, hk, heq⟩ := hmem
  have hb := (mem_manyLens true false (runLen jsWs v a) k).mp hk
  have hbeq : b = a + k := by
    have := (Prod.mk.injEq (a + k) ([] : Caps) b cs).mp (by rw [heq])
    exact this.1.symm
  exact ⟨k, by simpa using hb.1, hb.2, hbeq⟩

theorem replaceAll_none (re : RE) (v repl : List Char) (i : Nat)
    (hlt : ¬v.length < i) (hfm : firstMatchFrom re v i = none) :
    replaceAll re v repl i = v.drop i := by
  rw [replaceAll_eq, if_neg hlt, hfm]

theorem replaceAll_step (re : RE) (v repl : List Char) (i a b : Nat) (cs : Caps)
    (hlt : ¬v.length < i) (hfm : firstMatchFrom re v i = some (a, b, cs))
    (hba : ¬b ≤ a) :
    replaceAll re v repl i = extract v i a ++ repl ++ replaceAll re v repl b := by
  rw [replaceAll_eq, if_neg hlt, hfm]
  exact if_neg hba

theorem jsWs_open_brace : jsWs '{' = false := by decide

theorem jsWs_bang : jsWs '!' = false := by decide

theorem jsWs_close_brace : jsWs '}' = false := by decide

theorem markerAt_take (w : List Char) (k : Nat) (hk : 3 ≤ k)
    (h : markerAt w = true) : markerAt (w.take k) = true := by
  obtain ⟨r, hr⟩ := markerAt_shape w h
  rw [hr]
  rcases k with _ | _ | _ | k3
  · omega
  · omega
  · omega
  · simp [markerAt, List.take]

theorem replaceAll_ws_marker (v : List Char) :
    ∀ (n i : Nat), v.length + 1 - i ≤ n → hasMarker (v.drop i) = true →
      hasMarker (replaceAll wsRunRE v [' '] i) = true := by
  intro n
  induction n with
  | zero =>
      intro i hn h
      rw [List.drop_eq_nil_of_le (by omega)] at h
      simp [hasMarker] at h
  | succ n ih =>
      intro i hn h
      by_cases hlt : v.length < i
      · rw [List.drop_eq_nil_of_le (by omega)] at h
        simp [hasMarker] at h
      · cases hfm : firstMatchFrom wsRunRE v i with
        | none =>
            rw [replaceAll_none wsRunRE v [' '] i hlt hfm]
            exact h
        | some r =>
            obtain ⟨a, b, cs⟩ := r
            obtain ⟨hmin, hne, hmem, hhead⟩ :=
              fmAux_min wsRunRE v (v.length + 1 - i) i a b cs hfm
            obtain ⟨k, hk1, hk2, hbk⟩ := mem_matchList_wsRun v a b cs hmem
            have hbounds := firstMatchFrom_bounds wsRunRE v i a b cs hfm
            have hba : ¬b ≤ a := by omega
            rw [replaceAll_step wsRunRE v [' '] i a b cs hlt hfm hba]
            -- the run [a, b) is all whitespace
            have hws : ∀ x, a ≤ x → x < b → ∃ c t, v.drop x = c :: t ∧ jsWs c = true := by
              intro x hx1 hx2
              have hxa : x - a < runLen jsWs v a := by omega
              obtain ⟨c, t, hd, hq⟩ := runLen_pos_head jsWs v (x - a) a hxa
              have harith : a + (x - a) = x := by omega
              rw [harith] at hd
              exact ⟨c, t, hd, hq⟩
            -- locate the marker
            obtain ⟨j, hj⟩ := (hasMarker_iff_exists (v.drop i)).mp h
            rw [List.drop_drop] at hj
            set p := i + j with hp
            obtain ⟨mr, hmr⟩ := markerAt_shape (v.drop p) hj
            have hm1 : v.drop (p + 1) = '!' :: '}' :: mr := drop_succ_of_drop_cons v p '{' _ hmr
            have hm2 : v.drop (p + 1 + 1) = '}' :: mr := drop_succ_of_drop_cons v (p + 1) '!' _ hm1
            by_cases hcase1 : p + 3 ≤ a
            · -- marker entirely inside the kept prefix
              apply hasMarker_append_left
              apply hasMarker_append_left
              apply (hasMarker_iff_exists (extract v i a)).mpr
              refine ⟨p - i, ?_⟩
              have hext : (extract v i a).drop (p - i) = (v.drop p).take (a - i - (p - i)) := by
                unfold extract
                rw [List.drop_take, List.drop_drop]
                have harith : i + (p - i) = p := by omega
                rw [harith]
              rw [hext]
              apply markerAt_take (v.drop p) _ (by omega)
              rw [hmr]
              simp [markerAt]
            · by_cases hcase2 : b ≤ p
              · -- marker entirely after the replaced run
                apply hasMarker_append_right
                apply ih b (by omega)
                apply (hasMarker_iff_exists (v.drop b)).mpr
                refine ⟨p - b, ?_⟩
                rw [List.drop_drop]
                have harith : b + (p - b) = p := by omega
                rw [harith, hmr]
                simp [markerAt]
              · -- impossible: a marker character would be inside the whitespace run
                exfalso
                have hq : ∃ q, a ≤ q ∧ q < b ∧ (q = p ∨ q = p + 1 ∨ q = p + 1 + 1) := by
                  by_cases hpa : a ≤ p
                  · exact ⟨p, hpa, by omega, Or.inl rfl⟩
                  · by_cases hpa1 : a = p + 1
                    · exact ⟨p + 1, by omega, by omega, Or.inr (Or.inl rfl)⟩
                    · exact ⟨p + 1 + 1, by omega, by omega, Or.inr (Or.inr rfl)⟩
                obtain ⟨q, hq1, hq2, hq3⟩ := hq
                obtain ⟨c, t, hd, hcw⟩ := hws q hq1 hq2
                rcases hq3 with he | he | he
                · rw [he, hmr] at hd
                  have : c = '{' := (List.cons.inj hd).1.symm
                  rw [this] at hcw
                  exact absurd hcw (by decide)
                · rw [he, hm1] at hd
                  have : c = '!' := (List.cons.inj hd).1.symm
                  rw [this] at hcw
                  exact absurd hcw (by decide)
                · rw [he, hm2] at hd
                  have : c = '}' := (List.cons.inj hd).1.symm
                  rw [this] at hcw
                  exact absurd hcw (by decide)

theorem hasMarker_dropWhile_front (w : List Char) (h : hasMarker w = true) :
    hasMarker (List.dropWhile jsWs w) = true := by
  induction w with
  | nil => simp [hasMarker] at h
  | cons c rest ih =>
      by_cases hw : jsWs c = true
      · rw [List.dropWhile_cons, if_pos hw]
        simp only [hasMarker, Bool.or_eq_true] at h
        rcases h with h | h
        · obtain ⟨r, hr⟩ := markerAt_shape _ h
          have hc : c = '{' := (List.cons.inj hr).1
          rw [hc] at hw
          exact absurd hw (by decide)
        · exact ih h
      · rw [List.dropWhile_cons, if_neg hw]
        exact h

theorem rdrop_decomp (p : Char → Bool) (l : List Char) :
    l = List.rdropWhile p l ++ List.rtakeWhile p l := by
  unfold List.rdropWhile List.rtakeWhile
  rw [← List.reverse_append, List.takeWhile_append_dropWhile, List.reverse_reverse]

theorem head_drop_mem (w : List Char) (q : Nat) (c : Char) (t : List Char)
    (h : w.drop q = c :: t) : c ∈ w := by
  have : c ∈ w.drop q := by rw [h]; exact List.mem_cons_self c t
  exact List.mem_of_mem_drop this

theorem hasMarker_rdropWhile (w : List Char) (h : hasMarker w = true) :
    hasMarker (List.rdropWhile jsWs w) = true := by
  obtain ⟨j, hj⟩ := (hasMarker_iff_exists w).mp h
  obtain ⟨r, hr⟩ := markerAt_shape (w.drop j) hj
  have hm1 : w.drop (j + 1) = '!' :: '}' :: r := drop_succ_of_drop_cons w j '{' _ hr
  have hm2 : w.drop (j + 1 + 1) = '}' :: r := drop_succ_of_drop_cons w (j + 1) '!' _ hm1
  set d := List.rdropWhile jsWs w with hd
  set t := List.rtakeWhile jsWs w with ht
  have hdecomp : w = d ++ t := rdrop_decomp jsWs w
  have htws : ∀ c ∈ t, jsWs c = true := fun c hc => List.mem_rtakeWhile_imp hc
  -- every position ≥ d.length holds a whitespace character
  have hwsq : ∀ q c tl, d.length ≤ q → w.drop q = c :: tl → jsWs c = true := by
    intro q c tl hq hdrop
    have hdq : w.drop q = t.drop (q - d.length) := by
      rw [hdecomp, List.drop_append_eq_append_drop]
      rw [List.drop_eq_nil_of_le (by omega)]
      simp
    rw [hdq] at hdrop
    exact htws c (head_drop_mem t (q - d.length) c tl hdrop)
  -- hence the marker lies inside d
  have hj3 : j + 3 ≤ d.length := by
    by_contra hlt
    by_cases h1 : d.length ≤ j
    · exact absurd (hwsq j '{' _ h1 hr) (by decide)
    · by_cases h2 : d.length = j + 1
      · exact absurd (hwsq (j + 1) '!' _ (by omega) hm1) (by decide)
      · exact absurd (hwsq (j + 1 + 1) '}' _ (by omega) hm2) (by decide)
  apply (hasMarker_iff_exists d).mpr
  refine ⟨j, ?_⟩
  have hslice : w.drop j = d.drop j ++ t := by
    rw [hdecomp, List.drop_append_of_le_length (by omega)]
  rw [hslice] at hr
  rcases hsd : d.drop j with _ | ⟨c1, _ | ⟨c2, _ | ⟨c3, dr⟩⟩⟩
  · have : (d.drop j).length = d.length - j := by simp
    rw [hsd] at this
    simp at this
    omega
  · have : (d.drop j).length = d.length - j := by simp
    rw [hsd] at this
    simp at this
    omega
  · have : (d.drop j).length = d.length - j := by simp
    rw [hsd] at this
    simp at this
    omega
  · rw [hsd] at hr
    simp only [List.cons_append] at hr
    have hc1 : c1 = '{' := (List.cons.inj hr).1
    have hc2 : c2 = '!' := (List.cons.inj (List.cons.inj hr).2).1
    have hc3 : c3 = '}' := (List.cons.inj (List.cons.inj (List.cons.inj hr).2).2).1
    rw [hc1, hc2, hc3]
    simp [markerAt]

theorem hasMarker_jsTrim (w : List Char) (h : hasMarker w = true) :
    hasMarker (jsTrim w) = true :=
  hasMarker_dropWhile_front _ (hasMarker_rdropWhile w h)

theorem hasMarker_of_fm (s : List Char) (r : Nat × Nat × Caps)
    (h : firstMatchFrom markerRE s 0 = some r) : hasMarker s = true := by
  obtain ⟨a, b, cs⟩ := r
  obtain ⟨hmin, hne, hmem, hhead⟩ := fmAux_min markerRE s (s.length + 1 - 0) 0 a b cs h
  by_cases hma : markerAt (s.drop a) = true
  · exact hasMarker_of_markerAt_drop s a hma
  · have hf : markerAt (s.drop a) = false := by
      cases hq : markerAt (s.drop a)
      · rfl
      · exact absurd hq hma
    have hml := matchList_markerRE s a
    rw [hf] at hml
    simp only [Bool.false_eq_true, if_false] at hml
    exact absurd hml hne

theorem fm_ne_none_of_hasMarker (s : List Char) (h : hasMarker s = true) :
    firstMatchFrom markerRE s 0 ≠ none := by
  intro hnone
  obtain ⟨j, hj⟩ := (hasMarker_iff_exists s).mp h
  obtain ⟨r, hr⟩ := markerAt_shape _ hj
  have hjlt : j ≤ s.length := by
    by_contra hgt
    have hnil : s.drop j = [] := List.drop_eq_nil_of_le (by omega)
    rw [hnil] at hr
    cases hr
  have hall := fmAux_none_all markerRE s (s.length + 1 - 0) 0 (by omega) hnone j (by omega) hjlt
  rw [matchList_markerRE, hj, if_pos rfl] at hall
  cases hall

theorem hasMarker_ne_nil (l : List Char) (h : hasMarker l = true) : l ≠ [] := by
  intro hnil
  rw [hnil] at h
  simp [hasMarker] at h

/-- C8: `handleAlerts` invokes the notifier only when the literal `{!}`
marker occurs in the message (on a message without the marker the notifier
is never invoked, and whenever text is forwarded the marker was present and
the text is non-empty); on the concrete message of the spec the command
block and the marker are stripped, whitespace is collapsed and trimmed, and
exactly "Some text" is forwarded. -/
theorem c8_alert_extraction :
    (∀ msg : String, hasMarker msg.toList = false → handleAlerts msg = none) ∧
    (∀ msg t : String, handleAlerts msg = some t →
      hasMarker msg.toList = true ∧ ¬t = "") ∧
    handleAlerts "Some text \x7b!\x7d buy(1)\x7bdo(1)\x7d" = some "Some text" := by
  refine ⟨?_, ?_, by decide⟩
  · intro msg hm
    unfold handleAlerts
    cases hfm : firstMatchFrom markerRE msg.toList 0 with
    | none => simp
    | some r =>
        have := hasMarker_of_fm msg.toList r hfm
        rw [hm] at this
        cases this
  · intro msg t hsome
    unfold handleAlerts at hsome
    cases hfm : firstMatchFrom markerRE msg.toList 0 with
    | none =>
        rw [hfm] at hsome
        simp at hsome
    | some r =>
        rw [hfm] at hsome
        simp only [Option.isSome_some, if_true] at hsome
        refine ⟨hasMarker_of_fm msg.toList r hfm, ?_⟩
        by_cases hne : String.mk (alertText msg.toList) = ""
        · have hcond : ¬(String.mk (alertText msg.toList) ≠ "") := fun hc => hc hne
          rw [if_neg hcond] at hsome
          cases hsome
        · rw [if_pos hne] at hsome
          have ht : t = String.mk (alertText msg.toList) := (Option.some.inj hsome).symm
          rw [ht]
          exact hne

/-- Witness for C8's theorem: a message without the marker never reaches
the notifier. -/
theorem c8_alert_extraction_witness : handleAlerts "plain message" = none :=
  c8_alert_extraction.1 "plain message" (by decide)

/-- C9 counterexample: the claim as stated is false.  In the message
`{!}a(b){{!}` the marker occurs twice, yet block-stripping consumes the
second occurrence (the block match `a(b){{!}` swallows it), the first
occurrence is then removed, nothing remains, and the notifier is never
invoked — contradicting both "every later occurrence remains verbatim" and
"the notifier is always invoked". -/
theorem c9_counterexample :
    markerCount "\x7b!\x7da(b)\x7b\x7b!\x7d".toList = 2 ∧
    handleAlerts "\x7b!\x7da(b)\x7b\x7b!\x7d" = none := by
  exact ⟨by decide, by decide⟩

/-- C9 (amended): `handleAlerts` removes only the first marker occurrence
that survives block-stripping; when the marker occurs in the message and at
least two occurrences survive block-stripping, a later surviving occurrence
remains verbatim in the forwarded text, which is therefore non-empty, and
the notifier is invoked.  (When block-stripping consumes later occurrences
the notifier may stay silent, as the counterexample shows.) -/
theorem c9_marker_removal (msg : String)
    (hm : hasMarker msg.toList = true)
    (h2 : 2 ≤ markerCount (replaceAll alertBlockRE msg.toList [] 0)) :
    handleAlerts msg = some (String.mk (alertText msg.toList)) ∧
    hasMarker (alertText msg.toList) = true := by
  have hv := replaceFirst_marker_of_two (replaceAll alertBlockRE msg.toList [] 0) h2
  have hlen0 : (replaceFirst markerRE (replaceAll alertBlockRE msg.toList [] 0) []).length + 1 - 0 ≤
      (replaceFirst markerRE (replaceAll alertBlockRE msg.toList [] 0) []).length + 1 := by omega
  have hw := replaceAll_ws_marker (replaceFirst markerRE (replaceAll alertBlockRE msg.toList [] 0) [])
    ((replaceFirst markerRE (replaceAll alertBlockRE msg.toList [] 0) []).length + 1) 0 hlen0
    (by simpa using hv)
  have htr : hasMarker (alertText msg.toList) = true := hasMarker_jsTrim _ hw
  refine ⟨?_, htr⟩
  unfold handleAlerts
  cases hfm : firstMatchFrom markerRE msg.toList 0 with
  | none => exact absurd hfm (fm_ne_none_of_hasMarker msg.toList hm)
  | some r =>
      simp only [Option.isSome_some, if_true]
      rw [if_pos ?hne]
      case hne =>
        intro hempty
        have : alertText msg.toList = [] := by
          have := congrArg String.data hempty
          simpa using this
        exact hasMarker_ne_nil _ htr this

/-- Witness for C9's amended theorem at a concrete message with two marker
occurrences and no command blocks. -/
theorem c9_marker_removal_witness :
    handleAlerts "a \x7b!\x7d b \x7b!\x7d c" =
      some (String.mk (alertText "a \x7b!\x7d b \x7b!\x7d c".toList)) ∧
    hasMarker (alertText "a \x7b!\x7d b \x7b!\x7d c".toList) = true :=
  c9_marker_removal "a \x7b!\x7d b \x7b!\x7d c" (by decide) (by decide)

/-- C6: `parseArguments` on the exact string `a=1,b="x,y",2` returns the
three parameters `[{name:a, value:1, index:0}, {name:b, value:"x,y",
index:1}, {name:'', value:2, index:2}]` — the comma inside double quotes
does not split, named tokens yield identifier and unquoted value, and the
unnamed token yields an empty name with quotes stripped when fully
quoted. -/
theorem c6_parseArguments_example :
    parseArguments "a=1,b=\"x,y\",2" =
      [⟨"a", "1", 0⟩, ⟨"b", "x,y", 1⟩, ⟨"", "2", 2⟩] := by
  decide

/-- C10: the dispatch grammar and the alert-stripping grammar differ.  For
the message `{!} abc1(SYM){buy(1)}` — whose block identifier `abc1`
contains a digit after the first letter — `commandBlocks` emits the block
for execution, yet `handleAlerts`' block removal (letters-only identifiers)
does not strip it, so the block's full command text is forwarded to the
notifier as alert content. -/
theorem c10_grammar_mismatch :
    commandBlocksList "\x7b!\x7d abc1(SYM)\x7bbuy(1)\x7d" = [("abc1", "SYM", "buy(1)")] ∧
    handleAlerts "\x7b!\x7d abc1(SYM)\x7bbuy(1)\x7d" = some "abc1(SYM)\x7bbuy(1)\x7d" := by
  exact ⟨by decide, by decide⟩

theorem mem_matchList_cat (a b : RE) (s : List Char) (p : Nat) (r : Nat × Caps) :
    r ∈ matchList (RE.cat a b) s p ↔
      ∃ q c1 c2, (q, c1) ∈ matchList a s p ∧ (r.1, c2) ∈ matchList b s q ∧
        r.2 = c1 ++ c2 := by
  simp only [matchList, List.mem_flatMap, List.mem_map]
  constructor
  · intro ⟨r1, hr1, r2, hr2, hre⟩
    refine ⟨r1.1, r1.2, r2.2, hr1, ?_, ?_⟩
    · have : r.1 = r2.1 := by rw [← hre]
      rw [this]
      exact hr2
    · rw [← hre]
  · intro ⟨q, c1, c2, h1, h2, h3⟩
    refine ⟨(q, c1), h1, (r.1, c2), h2, ?_⟩
    rw [← h3]

theorem mem_matchList_alt (a b : RE) (s : List Char) (p : Nat) (r : Nat × Caps) :
    r ∈ matchList (RE.alt a b) s p ↔
      r ∈ matchList a s p ∨ r ∈ matchList b s p := by
  simp [matchList]

theorem mem_matchList_group (n : Nat) (a : RE) (s : List Char) (p : Nat) (r : Nat × Caps) :
    r ∈ matchList (RE.group n a) s p ↔
      ∃ c, (r.1, c) ∈ matchList a s p ∧ r.2 = c ++ [(n, p, r.1)] := by
  simp only [matchList, List.mem_map]
  constructor
  · intro ⟨r2, hr2, hre⟩
    refine ⟨r2.2, ?_, ?_⟩
    · have : r.1 = r2.1 := by rw [← hre]
      rw [this]
      exact hr2
    · rw [← hre]
  · intro ⟨c, h1, h2⟩
    exact ⟨(r.1, c), h1, by rw [← h2]⟩

theorem mem_matchList_many (q : Char → Bool) (rq lz : Bool) (s : List Char) (p : Nat)
    (r : Nat × Caps) :
    r ∈ matchList (RE.many q rq lz) s p ↔
      ∃ k, (if rq then 1 else 0) ≤ k ∧ k ≤ runLen q s p ∧ r = (p + k, []) := by
  simp only [matchList, List.mem_map]
  constructor
  · intro ⟨k, hk, hre⟩
    have := (mem_manyLens rq lz (runLen q s p) k).mp hk
    exact ⟨k, this.1, this.2, hre.symm⟩
  · intro ⟨k, h1, h2, h3⟩
    exact ⟨k, (mem_manyLens rq lz (runLen q s p) k).mpr ⟨h1, h2⟩, h3.symm⟩

theorem mem_matchList_cls (q : Char → Bool) (s : List Char) (p : Nat) (r : Nat × Caps) :
    r ∈ matchList (RE.cls q) s p ↔
      ∃ c t, s.drop p = c :: t ∧ q c = true ∧ r = (p + 1, []) := by
  simp only [matchList]
  rcases hd : s.drop p with _ | ⟨c, t⟩
  · simp
  · by_cases hq : q c = true
    · simp only [if_pos hq, List.mem_singleton]
      constructor
      · intro h
        exact ⟨c, t, rfl, hq, h⟩
      · intro ⟨c2, t2, he, hq2, hr⟩
        rw [hr]
    · simp only [if_neg hq]
      constructor
      · intro h; exact absurd h (List.not_mem_nil r)
      · intro ⟨c2, t2, he, hq2, hr⟩
        have : c2 = c := (List.cons.inj he).1.symm
        rw [this] at hq2
        exact absurd hq2 hq

theorem mem_matchList_bol (s : List Char) (p : Nat) (r : Nat × Caps) :
    r ∈ matchList RE.bol s p ↔ p = 0 ∧ r = (p, []) := by
  simp only [matchList]
  by_cases h : p = 0
  · subst h; simp
  · have hb : (p == 0) = false := by simp [h]
    rw [hb]
    simp [h]

theorem mem_matchList_eol (s : List Char) (p : Nat) (r : Nat × Caps) :
    r ∈ matchList RE.eol s p ↔ p = s.length ∧ r = (p, []) := by
  simp only [matchList]
  by_cases h : p = s.length
  · have hb : (p == s.length) = true := by simp [h]
    rw [hb]
    simp [h]
  · have hb : (p == s.length) = false := by simp [h]
    rw [hb]
    simp [h]

theorem mem_matchList_eps (s : List Char) (p : Nat) (r : Nat × Caps) :
    r ∈ matchList RE.eps s p ↔ r = (p, []) := by
  simp [matchList]

theorem mem_matchList_lit (c0 : Char) (s : List Char) (p : Nat) (r : Nat × Caps) :
    r ∈ matchList (lit c0) s p ↔
      ∃ t, s.drop p = c0 :: t ∧ r = (p + 1, []) := by
  unfold lit
  rw [mem_matchList_cls]
  constructor
  · intro ⟨c, t, hd, hq, hr⟩
    have : c = c0 := by simpa using hq
    rw [this] at hd
    exact ⟨t, hd, hr⟩
  · intro ⟨t, hd, hr⟩
    exact ⟨c0, t, hd, by simp, hr⟩

theorem no_quote_scQuoteTok (s : List Char) (hq : ∀ c ∈ s, ¬c = '"') (p : Nat) :
    matchList scQuoteTok s p = [] := by
  rw [List.eq_nil_iff_forall_not_mem]
  intro r hr
  rw [scQuoteTok, mem_matchList_group] at hr
  obtain ⟨c0, hr, -⟩ := hr
  rw [mem_matchList_cat] at hr
  obtain ⟨q1, c1, c2, -, hr, -⟩ := hr
  rw [mem_matchList_cat] at hr
  obtain ⟨q2, c3, c4, hlit, -, -⟩ := hr
  rw [mem_matchList_lit] at hlit
  obtain ⟨t, hd, -⟩ := hlit
  exact hq '"' (head_drop_mem s q1 '"' t hd) rfl

theorem no_quote_svQuoted (s : List Char) (hq : ∀ c ∈ s, ¬c = '"') (p : Nat) :
    matchList svQuoted s p = [] := by
  rw [List.eq_nil_iff_forall_not_mem]
  intro r hr
  rw [svQuoted, mem_matchList_group] at hr
  obtain ⟨c0, hr, -⟩ := hr
  rw [mem_matchList_cat] at hr
  obtain ⟨q1, c1, c2, hlit, -, -⟩ := hr
  rw [mem_matchList_lit] at hlit
  obtain ⟨t, hd, -⟩ := hlit
  exact hq '"' (head_drop_mem s p '"' t hd) rfl

theorem no_quote_lit (s : List Char) (hq : ∀ c ∈ s, ¬c = '"') (p : Nat) :
    matchList (lit '"') s p = [] := by
  rw [List.eq_nil_iff_forall_not_mem]
  intro r hr
  rw [mem_matchList_lit] at hr
  obtain ⟨t, hd, -⟩ := hr
  exact hq '"' (head_drop_mem s p '"' t hd) rfl

theorem no_quote_optQuote (s : List Char) (hq : ∀ c ∈ s, ¬c = '"') (p : Nat) :
    matchList (RE.alt (lit '"') RE.eps) s p = [(p, [])] := by
  have h1 : matchList (RE.alt (lit '"') RE.eps) s p =
      matchList (lit '"') s p ++ matchList RE.eps s p := rfl
  rw [h1, no_quote_lit s hq p, List.nil_append]
  rfl

theorem matchList_scPlainTok (s : List Char) (p : Nat) :
    matchList scPlainTok s p =
      (manyLens true false (runLen nonComma s p)).map
        (fun k => (p + k, ([(2, p, p + k)] : Caps))) := by
  show (matchList (RE.many nonComma true false) s p).map
      (fun r2 => (r2.1, r2.2 ++ [(2, p, r2.1)])) = _
  simp only [matchList, List.map_map]
  rfl

theorem matchList_splitByComma_no_quote (s : List Char) (hq : ∀ c ∈ s, ¬c = '"') (p : Nat) :
    matchList splitByCommaRE s p =
      (manyLens true false (runLen nonComma s p)).map
        (fun k => (p + k, ([(2, p, p + k)] : Caps))) := by
  have h1 : matchList splitByCommaRE s p =
      matchList scQuoteTok s p ++ matchList scPlainTok s p := rfl
  rw [h1, no_quote_scQuoteTok s hq p, List.nil_append, matchList_scPlainTok]

/-- The comma-split sequence of the claim's wording: split at every comma,
keeping empty segments (`commaSplit "a,,b" = [[a],[],[b]]`). -/
def commaSplit : List Char → List (List Char)
  | [] => [[]]
  | c :: rest =>
      if c = ',' then [] :: commaSplit rest
      else
        match commaSplit rest with
        | [] => [[c]]
        | seg :: segs => (c :: seg) :: segs

theorem commaSplit_ne_nil (l : List Char) : commaSplit l ≠ [] := by
  cases l with
  | nil => simp [commaSplit]
  | cons c rest =>
      simp only [commaSplit]
      by_cases hc : c = ','
      · simp [hc]
      · rw [if_neg hc]
        cases commaSplit rest with
        | nil => simp
        | cons seg segs => simp

theorem commaSplit_run (l : List Char) :
    commaSplit l =
      match l.dropWhile nonComma with
      | [] => [l.takeWhile nonComma]
      | _ :: rest => l.takeWhile nonComma :: commaSplit rest := by
  induction l with
  | nil => rfl
  | cons c t ih =>
      by_cases hc : c = ','
      · subst hc
        have hnc : nonComma ',' = false := by decide
        simp only [commaSplit, if_pos rfl, List.takeWhile_cons, List.dropWhile_cons, hnc]
        rfl
      · have hnc : nonComma c = true := by simp [nonComma, hc]
        simp only [commaSplit, if_neg hc, List.takeWhile_cons, List.dropWhile_cons, hnc,
          if_pos rfl]
        rw [ih]
        cases hdw : t.dropWhile nonComma with
        | nil => rfl
        | cons x rest => rfl

theorem dropWhile_head_false {α : Type} (q : α → Bool) (l : List α) (c : α) (t : List α)
    (h : l.dropWhile q = c :: t) : q c = false := by
  induction l with
  | nil => simp at h
  | cons x xs ih =>
      rw [List.dropWhile_cons] at h
      by_cases hx : q x = true
      · rw [if_pos hx] at h
        exact ih h
      · rw [if_neg hx] at h
        have : x = c := (List.cons.inj h).1
        rw [← this]
        cases hq : q x
        · rfl
        · exact absurd hq hx

theorem drop_takeWhile_len {α : Type} (q : α → Bool) (l : List α) :
    l.drop ((l.takeWhile q).length) = l.dropWhile q := by
  induction l with
  | nil => rfl
  | cons x xs ih =>
      rw [List.takeWhile_cons, List.dropWhile_cons]
      by_cases hx : q x = true
      · rw [if_pos hx, if_pos hx]
        simpa using ih
      · rw [if_neg hx, if_neg hx]
        rfl

theorem take_takeWhile_len {α : Type} (q : α → Bool) (l : List α) :
    l.take ((l.takeWhile q).length) = l.takeWhile q := by
  induction l with
  | nil => rfl
  | cons x xs ih =>
      rw [List.takeWhile_cons]
      by_cases hx : q x = true
      · rw [if_pos hx]
        simpa [List.take_cons] using ih
      · rw [if_neg hx]
        rfl

theorem runLen_pos_of_head (q : Char → Bool) (s : List Char) (p : Nat) (c : Char)
    (t : List Char) (hd : s.drop p = c :: t) (hc : q c = true) : 0 < runLen q s p := by
  unfold runLen
  rw [hd, List.takeWhile_cons, if_pos hc]
  simp

theorem manyLens_greedy_head (m : Nat) (hm : 1 ≤ m) :
    ∃ tl, manyLens true false m = m :: tl := by
  have h1 : manyLens true false m = (List.range' 1 (m - 1 + 1)).reverse := by
    unfold manyLens
    have hnot : ¬(m < if (true : Bool) then 1 else 0) := by
      show ¬(m < 1)
      omega
    rw [if_neg hnot]
    rfl
  rw [h1]
  obtain ⟨k, hk⟩ : ∃ k, m = k + 1 := ⟨m - 1, by omega⟩
  subst hk
  rw [show k + 1 - 1 + 1 = k + 1 from by omega, List.range'_concat]
  rw [List.reverse_append]
  rw [show 1 + 1 * k = k + 1 from by omega]
  exact ⟨(List.range' 1 k).reverse, by simp⟩

theorem gm_skip (re : RE) (s : List Char) (p : Nat)
    (hml : matchList re s p = []) (hp : p < s.length) :
    globalMatches re s p = globalMatches re s (p + 1) := by
  rw [globalMatches_eq re s p, if_neg (by omega), firstMatchFrom_eq, if_neg (by omega), hml,
    if_pos hp, globalMatches_eq re s (p + 1), if_neg (by omega)]

theorem runLen_end (q : Char → Bool) (s : List Char) (p : Nat) (h : s.drop p = []) :
    runLen q s p = 0 := by
  unfold runLen
  rw [h]
  rfl

theorem runLen_zero_of_head (q : Char → Bool) (s : List Char) (p : Nat) (c : Char)
    (t : List Char) (hd : s.drop p = c :: t) (hc : q c = false) : runLen q s p = 0 := by
  unfold runLen
  rw [hd, List.takeWhile_cons, if_neg (by simp [hc])]
  rfl

theorem gm_end (s : List Char) (hq : ∀ c ∈ s, ¬c = '"') (p : Nat) (hpl : s.length ≤ p) :
    globalMatches splitByCommaRE s p = [] := by
  by_cases hlt : s.length < p
  · rw [globalMatches_eq, if_pos hlt]
  · have hpeq : p = s.length := by omega
    have hml : matchList splitByCommaRE s p = [] := by
      rw [matchList_splitByComma_no_quote s hq p,
        runLen_end nonComma s p (List.drop_eq_nil_of_le (by omega))]
      rfl
    rw [globalMatches_eq, if_neg hlt, firstMatchFrom_eq, if_neg hlt, hml, if_neg (by omega)]

theorem tokens_eq_commaSplit (s : List Char) (hq : ∀ c ∈ s, ¬c = '"') :
    ∀ (n p : Nat), s.length + 1 - p ≤ n → p ≤ s.length →
      (globalMatches splitByCommaRE s p).map (fun m => extract s m.1 m.2.1) =
        (commaSplit (s.drop p)).filter (fun seg => !seg.isEmpty) := by
  intro n
  induction n with
  | zero => intro p hn hp; omega
  | succ n ih =>
      intro p hn hp
      rcases hd : s.drop p with _ | ⟨c, t⟩
      · have hpl : s.length ≤ p := by
          have hlen := congrArg List.length hd
          simp at hlen
          omega
        rw [gm_end s hq p hpl]
        rfl
      · have hplt : p < s.length := by
          by_contra hge
          have hnil : s.drop p = [] := List.drop_eq_nil_of_le (by omega)
          rw [hnil] at hd
          cases hd
        by_cases hc : c = ','
        · subst hc
          have hr0 : runLen nonComma s p = 0 := by
            unfold runLen
            rw [hd, List.takeWhile_cons, if_neg (by simp [nonComma])]
            rfl
          have hml : matchList splitByCommaRE s p = [] := by
            rw [matchList_splitByComma_no_quote s hq p, hr0]
            rfl
          rw [gm_skip splitByCommaRE s p hml hplt]
          have ht : s.drop (p + 1) = t := drop_succ_of_drop_cons s p ',' t hd
          have hstep : commaSplit (',' :: t) = [] :: commaSplit t := by
            show (if (',' : Char) = ',' then [] :: commaSplit t else
              match commaSplit t with
              | [] => [[',']]
              | seg :: segs => (',' :: seg) :: segs) = [] :: commaSplit t
            exact if_pos rfl
          have hrhs : (commaSplit (',' :: t)).filter (fun seg => !seg.isEmpty) =
              (commaSplit t).filter (fun seg => !seg.isEmpty) := by
            rw [hstep, List.filter_cons]
            simp
          rw [hrhs, ← ht]
          exact ih (p + 1) (by omega) (by omega)
        · have hnc : nonComma c = true := by simp [nonComma, hc]
          have hm1 : 0 < runLen nonComma s p := runLen_pos_of_head nonComma s p c t hd hnc
          have hm2 : runLen nonComma s p = ((c :: t).takeWhile nonComma).length := by
            unfold runLen
            rw [hd]
          obtain ⟨tl, htl⟩ := manyLens_greedy_head (runLen nonComma s p) (by omega)
          have hml : matchList splitByCommaRE s p =
              (p + runLen nonComma s p, [(2, p, p + runLen nonComma s p)]) ::
                tl.map (fun k => (p + k, ([(2, p, p + k)] : Caps))) := by
            rw [matchList_splitByComma_no_quote s hq p, htl]
            rfl
          have hfm : firstMatchFrom splitByCommaRE s p =
              some (p, p + runLen nonComma s p, [(2, p, p + runLen nonComma s p)]) := by
            rw [firstMatchFrom_eq, if_neg (by omega), hml]
          have hgm : globalMatches splitByCommaRE s p =
              (p, p + runLen nonComma s p, [(2, p, p + runLen nonComma s p)]) ::
                globalMatches splitByCommaRE s (p + runLen nonComma s p) := by
            rw [globalMatches_eq, if_neg (by omega), hfm]
            simp [show ¬(p + runLen nonComma s p ≤ p) from by omega]
          have hext : extract s p (p + runLen nonComma s p) = (c :: t).takeWhile nonComma := by
            unfold extract
            rw [show p + runLen nonComma s p - p = runLen nonComma s p from by omega, hd, hm2]
            exact take_takeWhile_len nonComma (c :: t)
          have hland : s.drop (p + runLen nonComma s p) = (c :: t).dropWhile nonComma := by
            have hdd : s.drop (p + runLen nonComma s p) = (s.drop p).drop (runLen nonComma s p) := by
              rw [List.drop_drop]
            rw [hdd, hd, hm2]
            exact drop_takeWhile_len nonComma (c :: t)
          have hrl : runLen nonComma s p ≤ s.length - p := runLen_le nonComma s p
          have htw_ne : (c :: t).takeWhile nonComma ≠ [] := by
            rw [List.takeWhile_cons, if_pos hnc]
            simp
          rw [hgm, commaSplit_run (c :: t)]
          cases hdw : (c :: t).dropWhile nonComma with
          | nil =>
              have hend : s.drop (p + runLen nonComma s p) = [] := by rw [hland, hdw]
              have hpm : s.length ≤ p + runLen nonComma s p := by
                by_contra hlt
                have : s.drop (p + runLen nonComma s p) ≠ [] := by
                  intro hnil
                  have hlen := congrArg List.length hnil
                  simp at hlen
                  omega
                exact this hend
              rw [List.map_cons, gm_end s hq _ hpm, hext]
              rw [List.filter_cons]
              simp only [List.map_nil]
              rw [if_pos (by simpa using htw_ne)]
              rfl
          | cons x rest =>
              have hxc : x = ',' := by
                have := dropWhile_head_false nonComma (c :: t) x rest hdw
                simp [nonComma] at this
                exact this
              have hdx : s.drop (p + runLen nonComma s p) = x :: rest := by rw [hland, hdw]
              have hplt2 : p + runLen nonComma s p < s.length := by
                by_contra hge
                have hnil : s.drop (p + runLen nonComma s p) = [] :=
                  List.drop_eq_nil_of_le (by omega)
                rw [hnil] at hdx
                cases hdx
              have hr02 : runLen nonComma s (p + runLen nonComma s p) = 0 :=
                runLen_zero_of_head nonComma s _ x rest hdx (by simp [nonComma, hxc])
              have hml2 : matchList splitByCommaRE s (p + runLen nonComma s p) = [] := by
                rw [matchList_splitByComma_no_quote s hq _, hr02]
                rfl
              have hnext : s.drop (p + runLen nonComma s p + 1) = rest :=
                drop_succ_of_drop_cons s _ x rest hdx
              rw [List.map_cons, gm_skip splitByCommaRE s _ hml2 hplt2, hext]
              rw [List.filter_cons, if_pos (by simpa using htw_ne)]
              have hih := ih (p + runLen nonComma s p + 1) (by omega) (by omega)
              rw [hnext] at hih
              rw [hih]

theorem takeWhile_all {α : Type} (q : α → Bool) (l : List α)
    (h : ∀ a ∈ l, q a = true) : l.takeWhile q = l := by
  induction l with
  | nil => rfl
  | cons c rest ih =>
      rw [List.takeWhile_cons, if_pos (h c (List.mem_cons_self c rest))]
      rw [ih (fun a ha => h a (List.mem_cons_of_mem c ha))]

theorem svBranch2_mem (t : List Char) (hne : t ≠ [])
    (hdt : ∀ c ∈ t, jsDot c = true) :
    ((t.length, [(7, 0, t.length)]) : Nat × Caps) ∈ matchList svBranch2 t 0 := by
  rw [svBranch2, mem_matchList_cat]
  refine ⟨t.length, [(7, 0, t.length)], [], ?_, ?_, by simp⟩
  · rw [mem_matchList_group]
    refine ⟨[], ?_, by simp⟩
    rw [mem_matchList_many]
    refine ⟨t.length, ?_, ?_, by simp⟩
    · show (1 : Nat) ≤ t.length
      exact List.length_pos.mpr hne
    · unfold runLen
      rw [List.drop_zero, takeWhile_all jsDot t hdt]
  · rw [mem_matchList_eol]
    exact ⟨rfl, rfl⟩

theorem svBranch2_caps (t : List Char) (p : Nat) (r : Nat × Caps)
    (hr : r ∈ matchList svBranch2 t p) :
    r.2 = [(7, p, t.length)] ∧ p + 1 ≤ t.length := by
  rw [svBranch2, mem_matchList_cat] at hr
  obtain ⟨q, c1, c2, hg, he, hcaps⟩ := hr
  rw [mem_matchList_group] at hg
  obtain ⟨c, hm, hc1⟩ := hg
  rw [mem_matchList_many] at hm
  obtain ⟨k, hk1, hk2, hqc⟩ := hm
  rw [mem_matchList_eol] at he
  obtain ⟨hq, hrc⟩ := he
  rw [Prod.mk.injEq] at hqc hrc
  obtain ⟨hq1, hc⟩ := hqc
  obtain ⟨hr1, hc2⟩ := hrc
  dsimp only at hc1 hq1
  have hk1' : 1 ≤ k := by simpa using hk1
  constructor
  · rw [hcaps, hc1, hc, hc2, hq]
    simp
  · omega

theorem svBranch1_caps (t : List Char) (hqt : ∀ c ∈ t, ¬c = '"') (r : Nat × Caps)
    (hr : r ∈ matchList svBranch1 t 0) :
    ∃ q2 a b, r.2 = [(2, 0, q2), (6, a, b), (3, a, b), (1, 0, b)] ∧
      a < b ∧ b ≤ t.length := by
  have hend := matchList_end_le svBranch1 t 0 (Nat.zero_le _) r hr
  rw [svBranch1, mem_matchList_cat] at hr
  obtain ⟨qb, cb, cg, hbol, hg1, hcaps⟩ := hr
  rw [mem_matchList_bol] at hbol
  obtain ⟨-, hbc⟩ := hbol
  rw [Prod.mk.injEq] at hbc
  obtain ⟨hqb, hcb⟩ := hbc
  rw [mem_matchList_group] at hg1
  obtain ⟨cX, hX, hcg⟩ := hg1
  rw [mem_matchList_cat] at hX
  obtain ⟨q2, c2g, cY, h2, hY, hcX⟩ := hX
  rw [mem_matchList_group] at h2
  obtain ⟨ca, ha, hc2g⟩ := h2
  rw [mem_matchList_many] at ha
  obtain ⟨k2, -, -, ha2⟩ := ha
  rw [mem_matchList_cat] at hY
  obtain ⟨qw1, cw1, cZ, hw1, hZ, hcY⟩ := hY
  rw [mem_matchList_many] at hw1
  obtain ⟨kw1, -, -, hw1e⟩ := hw1
  rw [mem_matchList_cat] at hZ
  obtain ⟨ql, cl, cW, hlit, hW, hcZ⟩ := hZ
  rw [mem_matchList_lit] at hlit
  obtain ⟨tl2, -, hle⟩ := hlit
  rw [mem_matchList_cat] at hW
  obtain ⟨qw2, cw2, cV, hw2, hV, hcW⟩ := hW
  rw [mem_matchList_many] at hw2
  obtain ⟨kw2, -, -, hw2e⟩ := hw2
  rw [mem_matchList_group] at hV
  obtain ⟨cA, hA, hcV⟩ := hV
  rw [mem_matchList_alt] at hA
  rcases hA with hA | hA
  · rw [no_quote_svQuoted t hqt qw2] at hA
    exact absurd hA (List.not_mem_nil _)
  rw [svBare, mem_matchList_cat] at hA
  obtain ⟨qo1, co1, cB, ho1, hB, hcA⟩ := hA
  rw [no_quote_optQuote t hqt qw2] at ho1
  have ho1e : (qo1, co1) = (qw2, ([] : Caps)) := by simpa using ho1
  rw [mem_matchList_cat] at hB
  obtain ⟨q6, c6g, co2, h6, ho2, hcB⟩ := hB
  rw [mem_matchList_group] at h6
  obtain ⟨c6i, h6i, hc6g⟩ := h6
  rw [mem_matchList_many] at h6i
  obtain ⟨k6, hk61, hk62, h6e⟩ := h6i
  rw [no_quote_optQuote t hqt q6] at ho2
  have ho2e : (r.1, co2) = (q6, ([] : Caps)) := by simpa using ho2
  dsimp only at hcg hcX hc2g hcY hcZ hcW hcV hcA hcB hc6g
  rw [Prod.mk.injEq] at ho1e ho2e ha2 hw1e hle hw2e h6e
  obtain ⟨hqo1, hco1⟩ := ho1e
  obtain ⟨hre, hco2⟩ := ho2e
  obtain ⟨hq2e, hca⟩ := ha2
  obtain ⟨-, hcw1⟩ := hw1e
  obtain ⟨-, hcl⟩ := hle
  obtain ⟨-, hcw2⟩ := hw2e
  obtain ⟨hq6e, hc6i⟩ := h6e
  dsimp only at hqo1 hco1 hre hco2 hq2e hca hcw1 hcl hcw2 hq6e hc6i
  refine ⟨q2, qw2, q6, ?_, ?_, ?_⟩
  · rw [hcaps, hcb, hcg, hcX, hc2g, hca, hcY, hcw1, hcZ, hcl, hcW, hcw2, hcV, hcA,
      hco1, hcB, hc6g, hc6i, hco2, hqo1, hre, hqb]
    simp
  · have hk61' : 1 ≤ k6 := by simpa using hk61
    omega
  · omega

theorem classifyTok_g7 (t : List Char) (i : Nat) (r : Nat × Nat × Caps)
    (hfm : firstMatchFrom splitValuesRE t 0 = some r)
    (h7 : truthy (capStr t r.2.2 7) = true) :
    ∃ p, classifyTok t i = some p ∧ p.index = i := by
  unfold classifyTok
  rw [hfm]
  simp only [h7, if_true]
  exact ⟨_, rfl, rfl⟩

theorem classifyTok_g6 (t : List Char) (i : Nat) (r : Nat × Nat × Caps)
    (hfm : firstMatchFrom splitValuesRE t 0 = some r)
    (h7 : truthy (capStr t r.2.2 7) = false)
    (h6 : truthy (capStr t r.2.2 6) = true) :
    ∃ p, classifyTok t i = some p ∧ p.index = i := by
  unfold classifyTok
  rw [hfm]
  simp only [h7, h6, Bool.false_eq_true, if_false, if_true]
  exact ⟨_, rfl, rfl⟩

theorem svBranch1_pos (t : List Char) (p : Nat) (r : Nat × Caps)
    (hr : r ∈ matchList svBranch1 t p) : p = 0 := by
  rw [svBranch1, mem_matchList_cat] at hr
  obtain ⟨q, c1, c2, hbol, -, -⟩ := hr
  rw [mem_matchList_bol] at hbol
  exact hbol.1

theorem jsDot_of_not_jsWs (c : Char) (h : jsWs c = false) : jsDot c = true := by
  unfold jsWs at h
  unfold jsDot
  have h1 : (c == '\n') = false := by
    by_contra hx
    simp only [Bool.not_eq_false] at hx
    rw [hx] at h
    simp at h
  have h2 : (c == '\r') = false := by
    by_contra hx
    simp only [Bool.not_eq_false] at hx
    rw [hx] at h
    simp at h
  have h3 : (c.toNat == 0x2028) = false := by
    by_contra hx
    simp only [Bool.not_eq_false] at hx
    rw [hx] at h
    simp at h
  have h4 : (c.toNat == 0x2029) = false := by
    by_contra hx
    simp only [Bool.not_eq_false] at hx
    rw [hx] at h
    simp at h
  rw [h1, h2, h3, h4]
  rfl

theorem svBranch2_mem_last (u : List Char) (c : Char) (hc : jsDot c = true) :
    (((u ++ [c]).length, [(7, u.length, (u ++ [c]).length)]) : Nat × Caps) ∈
      matchList svBranch2 (u ++ [c]) u.length := by
  rw [svBranch2, mem_matchList_cat]
  refine ⟨(u ++ [c]).length, [(7, u.length, (u ++ [c]).length)], [], ?_, ?_, by simp⟩
  · rw [mem_matchList_group]
    refine ⟨[], ?_, by simp⟩
    rw [mem_matchList_many]
    refine ⟨1, ?_, ?_, ?_⟩
    · show (1 : Nat) ≤ 1
      exact Nat.le_refl 1
    · have hdrop : (u ++ [c]).drop u.length = [c] := List.drop_left u [c]
      unfold runLen
      rw [hdrop, List.takeWhile_cons, if_pos hc]
      simp
    · rw [Prod.mk.injEq]
      constructor
      · rw [List.length_append]
        rfl
      · rfl
  · rw [mem_matchList_eol]
    exact ⟨rfl, rfl⟩

theorem jsTrim_last (seg : List Char) (h : jsTrim seg ≠ []) :
    ∃ u c, jsTrim seg = u ++ [c] ∧ jsWs c = false := by
  unfold jsTrim at h ⊢
  cases hdw : List.dropWhile jsWs seg.reverse with
  | nil =>
      rw [hdw] at h
      simp at h
  | cons c0 rest =>
      have hc0 : jsWs c0 = false := dropWhile_head_false jsWs seg.reverse c0 rest hdw
      rw [List.reverse_cons, List.dropWhile_append]
      cases hdw2 : List.dropWhile jsWs rest.reverse with
      | nil =>
          rw [if_pos (show (([] : List Char).isEmpty = true) from rfl)]
          rw [List.dropWhile_cons, if_neg (by simp [hc0])]
          exact ⟨[], c0, rfl, hc0⟩
      | cons d ds =>
          rw [if_neg (by simp)]
          exact ⟨d :: ds, c0, rfl, hc0⟩

theorem classifyTok_some (t : List Char) (i : Nat)
    (hqt : ∀ c ∈ t, ¬c = '"')
    (hlast : ∃ u c, t = u ++ [c] ∧ jsWs c = false) :
    ∃ p, classifyTok t i = some p ∧ p.index = i := by
  obtain ⟨u, cl, hteq, hclw⟩ := hlast
  have hcld : jsDot cl = true := jsDot_of_not_jsWs cl hclw
  have hul : u.length < t.length := by
    rw [hteq, List.length_append]
    simp
  have hne2 : matchList splitValuesRE t u.length ≠ [] := by
    intro hnil
    have hmem : ((t.length, [(7, u.length, t.length)]) : Nat × Caps) ∈
        matchList splitValuesRE t u.length := by
      rw [splitValuesRE, mem_matchList_alt]
      refine Or.inr ?_
      rw [hteq]
      exact svBranch2_mem_last u cl hcld
    rw [hnil] at hmem
    exact List.not_mem_nil _ hmem
  cases hfm : firstMatchFrom splitValuesRE t 0 with
  | none =>
      exfalso
      exact hne2 (fmAux_none_all splitValuesRE t (t.length + 1 - 0) 0 (Nat.le_refl _) hfm
        u.length (Nat.zero_le _) (by omega))
  | some r =>
      obtain ⟨a, b, cs⟩ := r
      obtain ⟨-, -, hmem, -⟩ := fmAux_min splitValuesRE t (t.length + 1 - 0) 0 a b cs hfm
      rw [splitValuesRE, mem_matchList_alt] at hmem
      rcases hmem with h1 | h2
      · have ha0 : a = 0 := svBranch1_pos t a (b, cs) h1
        subst ha0
        obtain ⟨q2, a2, b2, hcaps, hab, hbl⟩ := svBranch1_caps t hqt (b, cs) h1
        dsimp only at hcaps
        have h7 : truthy (capStr t ((0, b, cs) : Nat × Nat × Caps).2.2 7) = false := by
          show truthy (capStr t cs 7) = false
          rw [hcaps]
          rfl
        have h6 : truthy (capStr t ((0, b, cs) : Nat × Nat × Caps).2.2 6) = true := by
          show truthy (capStr t cs 6) = true
          rw [hcaps]
          show truthy (some (extract t a2 b2)) = true
          have hpos : 0 < (extract t a2 b2).length := by
            unfold extract
            rw [List.length_take, List.length_drop]
            omega
          cases hx : extract t a2 b2 with
          | nil => rw [hx] at hpos; simp at hpos
          | cons c3 cs3 => rfl
        exact classifyTok_g6 t i (0, b, cs) hfm h7 h6
      · obtain ⟨hcaps, halen⟩ := svBranch2_caps t a (b, cs) h2
        dsimp only at hcaps
        have h7 : truthy (capStr t ((a, b, cs) : Nat × Nat × Caps).2.2 7) = true := by
          show truthy (capStr t cs 7) = true
          rw [hcaps]
          show truthy (some (extract t a t.length)) = true
          have hpos : 0 < (extract t a t.length).length := by
            unfold extract
            rw [List.length_take, List.length_drop]
            omega
          cases hx : extract t a t.length with
          | nil => rw [hx] at hpos; simp at hpos
          | cons c3 cs3 => rfl
        exact classifyTok_g7 t i (a, b, cs) hfm h7

theorem commaSplit_cons (c : Char) (rest : List Char) :
    commaSplit (c :: rest) =
      if c = ',' then [] :: commaSplit rest
      else
        match commaSplit rest with
        | [] => [[c]]
        | seg :: segs => (c :: seg) :: segs := rfl

theorem mem_of_mem_commaSplit (l : List Char) :
    ∀ seg ∈ commaSplit l, ∀ a ∈ seg, a ∈ l := by
  induction l with
  | nil =>
      intro seg hseg a ha
      simp [commaSplit] at hseg
      rw [hseg] at ha
      simp at ha
  | cons c rest ih =>
      intro seg hseg a ha
      rw [commaSplit_cons] at hseg
      by_cases hc : c = ','
      · rw [if_pos hc] at hseg
        rcases List.mem_cons.mp hseg with h | h
        · rw [h] at ha
          simp at ha
        · exact List.mem_cons_of_mem c (ih seg h a ha)
      · rw [if_neg hc] at hseg
        cases hcs : commaSplit rest with
        | nil => exact absurd hcs (commaSplit_ne_nil rest)
        | cons seg0 segs =>
            rw [hcs] at hseg
            rcases List.mem_cons.mp hseg with h | h
            · rw [h] at ha
              rcases List.mem_cons.mp ha with h2 | h2
              · rw [h2]
                exact List.mem_cons_self c rest
              · have hs0 : seg0 ∈ commaSplit rest := by
                  rw [hcs]
                  exact List.mem_cons_self _ _
                exact List.mem_cons_of_mem c (ih seg0 hs0 a h2)
            · have hsm : seg ∈ commaSplit rest := by
                rw [hcs]
                exact List.mem_cons_of_mem _ h
              exact List.mem_cons_of_mem c (ih seg hsm a ha)

theorem mem_dropWhile_of_not {α : Type} (q : α → Bool) (l : List α) (c : α)
    (hc : c ∈ l) (hqc : q c = false) : c ∈ l.dropWhile q := by
  induction l with
  | nil => simp at hc
  | cons a l ih =>
      rw [List.dropWhile_cons]
      by_cases ha : q a = true
      · rw [if_pos ha]
        rcases List.mem_cons.mp hc with h | h
        · rw [h] at hqc
          rw [hqc] at ha
          cases ha
        · exact ih h
      · rw [if_neg ha]
        exact hc

theorem jsTrim_ne_nil (seg : List Char) (c : Char) (hc : c ∈ seg)
    (hcw : jsWs c = false) : jsTrim seg ≠ [] := by
  unfold jsTrim
  apply List.ne_nil_of_mem (a := c)
  apply mem_dropWhile_of_not jsWs _ c _ hcw
  rw [List.mem_reverse]
  apply mem_dropWhile_of_not jsWs _ c _ hcw
  rw [List.mem_reverse]
  exact hc

theorem mem_of_mem_jsTrim (seg : List Char) (a : Char) (ha : a ∈ jsTrim seg) :
    a ∈ seg := by
  unfold jsTrim at ha
  have h1 := (List.dropWhile_sublist jsWs).subset ha
  rw [List.mem_reverse] at h1
  have h2 := (List.dropWhile_sublist jsWs).subset h1
  rw [List.mem_reverse] at h2
  exact h2

theorem filterMap_classify (toks : List (List Char))
    (h : ∀ tok ∈ toks, ∀ i, ∃ p, classifyTok tok i = some p ∧ p.index = i) :
    ∀ j, ((toks.enumFrom j).filterMap fun t => classifyTok t.2 t.1).length = toks.length ∧
      ∀ k p, ((toks.enumFrom j).filterMap fun t => classifyTok t.2 t.1).get? k = some p →
        p.index = j + k := by
  induction toks with
  | nil =>
      intro j
      refine ⟨rfl, ?_⟩
      intro k p hk
      simp at hk
  | cons tok rest ih =>
      intro j
      obtain ⟨p0, hp0, hidx⟩ := h tok (List.mem_cons_self _ _) j
      have hrest := ih (fun tok2 h2 i => h tok2 (List.mem_cons_of_mem _ h2) i) (j + 1)
      have hfc : ((tok :: rest).enumFrom j).filterMap (fun t => classifyTok t.2 t.1) =
          p0 :: (rest.enumFrom (j + 1)).filterMap (fun t => classifyTok t.2 t.1) := by
        rw [List.enumFrom_cons, List.filterMap_cons]
        dsimp only
        rw [hp0]
      rw [hfc]
      constructor
      · simp [hrest.1]
      · intro k p hk
        cases k with
        | zero =>
            simp at hk
            rw [← hk, hidx]
            omega
        | succ k2 =>
            have hk2 : ((rest.enumFrom (j + 1)).filterMap
                (fun t => classifyTok t.2 t.1)).get? k2 = some p := hk
            have := hrest.2 k2 p hk2
            omega

/-- C7 (counterexamples to the literal claim).  First family: the string
`a,,b` contains no double quote at all (so certainly no comma inside a
double-quoted substring), and splitting it on commas yields the three
tokens `a`, `` `` and `b`; yet `parseArguments` produces only two
`Param`s, because the comma-split regex scan of the source skips the empty
token entirely, and the `Param` for the third comma-delimited token `b`
carries index 1, not its comma-split position 2.  Second family: the
string `a=""` has no comma at all (so no comma inside quotes either), one
comma-delimited token, yet `parseArguments` produces no `Param`: the
classifier matches the named-quoted alternative with an empty `m[5]`,
whose falsiness makes the cascade push nothing — so a quote condition is
also needed for one-`Param`-per-token. -/
theorem c7_counterexample :
    ((∀ c ∈ "a,,b".toList, ¬c = '"') ∧
      commaSplit "a,,b".toList = [['a'], [], ['b']] ∧
      parseArguments "a,,b" = [⟨"", "a", 0⟩, ⟨"", "b", 1⟩]) ∧
    (',' ∉ "a=\"\"".toList ∧
      (commaSplit "a=\"\"".toList).length = 1 ∧
      parseArguments "a=\"\"" = []) :=
  ⟨⟨by decide, by decide, by decide⟩, ⟨by decide, by decide, by decide⟩⟩

/-- C7 (amended): for every argument string with no double quote anywhere
and a non-whitespace character in every comma-delimited segment,
`parseArguments` produces exactly one `Param` per comma-delimited token,
each `Param`'s `index` equal to the zero-based position of its token in
the comma-split sequence; and the empty string yields the empty sequence.
(Without the segment condition, an empty or all-whitespace token is
silently skipped and the indices drift from the comma-split positions, and
without the quote condition a token such as `a=""` yields no `Param`, as
`c7_counterexample` shows; a malformed token never raises an error —
`filterMap` just drops it.) -/
theorem c7_tokenization (s : String)
    (hq : ∀ c ∈ s.toList, ¬c = '"')
    (hw : ∀ seg ∈ commaSplit s.toList, ∃ c ∈ seg, jsWs c = false) :
    parseArguments "" = [] ∧
    (parseArguments s).length = (commaSplit s.toList).length ∧
    (∀ k p, (parseArguments s).get? k = some p → p.index = k) := by
  have htok : argTokens s.toList =
      ((commaSplit s.toList).filter (fun seg => !seg.isEmpty)).map jsTrim := by
    unfold argTokens
    have hts := tokens_eq_commaSplit s.toList hq (s.toList.length + 1) 0 (by omega) (by omega)
    rw [List.drop_zero] at hts
    rw [← hts, List.map_map]
    rfl
  have hfil : (commaSplit s.toList).filter (fun seg => !seg.isEmpty) =
      commaSplit s.toList := by
    apply List.filter_eq_self.mpr
    intro seg hseg
    obtain ⟨c, hcm, -⟩ := hw seg hseg
    cases seg with
    | nil => simp at hcm
    | cons a l => rfl
  have hcls : ∀ tok ∈ argTokens s.toList, ∀ i,
      ∃ p, classifyTok tok i = some p ∧ p.index = i := by
    intro tok htokmem i
    rw [htok, hfil, List.mem_map] at htokmem
    obtain ⟨seg, hseg, htokeq⟩ := htokmem
    obtain ⟨c, hcseg, hcw⟩ := hw seg hseg
    apply classifyTok_some
    · intro a hamem
      rw [← htokeq] at hamem
      exact hq a (mem_of_mem_commaSplit s.toList seg hseg a (mem_of_mem_jsTrim seg a hamem))
    · rw [← htokeq]
      exact jsTrim_last seg (jsTrim_ne_nil seg c hcseg hcw)
  have hmain := filterMap_classify (argTokens s.toList) hcls 0
  refine ⟨by decide, ?_, ?_⟩
  · show (((argTokens s.toList).enum).filterMap fun t => classifyTok t.2 t.1).length = _
    rw [show (argTokens s.toList).enum = (argTokens s.toList).enumFrom 0 from rfl]
    rw [hmain.1, htok, hfil, List.length_map]
  · intro k p hk
    have hik := hmain.2 k p hk
    omega

/-- C7 (witness): the amended theorem applied to the concrete string
`a=1, 2`: both comma-delimited tokens produce a `Param` (two of each), and
the `Param` obtained at list position 1 carries index 1. -/
theorem c7_tokenization_witness :
    (parseArguments "a=1, 2").length = (commaSplit "a=1, 2".toList).length ∧
    (Param.mk "" "2" 1).index = 1 := by
  have h := c7_tokenization "a=1, 2" (by decide) (by decide)
  exact ⟨h.2.1, h.2.2 1 (Param.mk "" "2" 1) (by decide)⟩
